import Mathlib

/-
Verification of the journey-demo core: the dependency-resolution engine
(dagUtils), the data-source provider registry, the built-in providers,
and the prefill-mapping update of graphService.

The definitions below are a shallow embedding of the TypeScript source:
  - JS `Map<string, FormNode>` built by createNodeMap is modelled as the
    insertion list of nodes; lookup (mapGet) returns the LAST node with a
    matching id (later `set` wins, as for JS Map construction).
  - JS `Set<string>` objects (visited sets, direct-dependency sets) are
    modelled as lists of strings with membership tests.
  - The two BFS loops (getTransitiveDependencies / getAllAncestors) and the
    recursive DFS of topologicalSort are modelled with an explicit fuel
    parameter.  The fuel chosen at each call site dominates the number of
    loop iterations (resp. the recursion depth) on every input, so the
    zero-fuel branches are dead code and the functions compute exactly what
    the unbounded JS loops compute; the sumPrereqs bound below is the
    measure that justifies this.
  - JS records (`Record<string, PrefillMapping>`, `field_schema.properties`)
    are modelled as association lists in key-insertion order; updating an
    existing key keeps its position, a fresh key is appended, matching JS
    object semantics.
  - JS string truthiness (`a || b` where `a` may be undefined or the empty
    string) is modelled by jsOr / jsOrOpt below.
  - Mutable array aliasing in GlobalDataProvider is modelled with an
    explicit heap of arrays: a provider instance holds the index of the
    array object it references.
Fields of the TypeScript interfaces that are never read by any of the
modelled functions (node positions, ui schemas, sla durations, ...) are
omitted from the structures.
-/

/-- One field of a form's field schema: declared value type, optional
display title, optional semantic subtype (avantos_type). -/
structure FieldSchema where
  type : String
  title : Option String
  avantos_type : Option String
  deriving DecidableEq, Repr

/-- A form definition: identifier, name, and the field schema given as an
association list from field id to FieldSchema (the `properties` record,
which is optional in the TypeScript type). -/
structure FormDefinition where
  id : String
  name : String
  properties : Option (List (String × FieldSchema))
  deriving DecidableEq, Repr

/-- A persisted prefill-mapping descriptor (the value type of a node's
input_mapping record).  `type` is kept as a raw string, as the update path
of graphService casts an arbitrary string into this field. -/
structure PrefillMapping where
  type : String
  sourceFormId : Option String
  sourceFieldId : String
  sourcePath : Option String
  deriving DecidableEq, Repr

/-- The data payload of a graph node: display name, ordered prerequisite
identifiers, form-definition reference, and the input_mapping record. -/
structure NodeData where
  name : String
  prerequisites : List String
  component_id : String
  input_mapping : List (String × PrefillMapping)
  deriving DecidableEq, Repr

/-- A node of the blueprint graph. -/
structure FormNode where
  id : String
  data : NodeData
  deriving DecidableEq, Repr

/-- The complete blueprint graph aggregate (node collection and
form-definition collection; the edge collection is never read by the
modelled code). -/
structure BlueprintGraph where
  nodes : List FormNode
  forms : List FormDefinition
  deriving DecidableEq, Repr

/-- Flattened field information produced by getFormFields. -/
structure FieldInfo where
  id : String
  name : String
  type : String
  avantosType : Option String
  deriving DecidableEq, Repr

/-- The direct/transitive classification returned by getAllDependencies. -/
structure DependencyInfo where
  direct : List FormNode
  transitive : List FormNode
  deriving DecidableEq, Repr

/-- JS string truthiness for `a || b` where `a` is a string option:
undefined and the empty string both fall through to `b`. -/
def jsOr (a : Option String) (b : String) : String :=
  match a with
  | none => b
  | some s => if s = "" then b else s

/-- JS truthiness normalisation of an optional string: the empty string is
falsy, so `x && {f: x}` omits the field both for undefined and for "". -/
def jsOrOpt (a : Option String) : Option String :=
  match a with
  | none => none
  | some s => if s = "" then none else some s

/-- The node map built by createNodeMap: we keep the insertion list. -/
abbrev NodeMap := List FormNode

/-- createNodeMap from dagUtils: `new Map(nodes.map(n => [n.id, n]))`.
The JS Map is represented by its insertion list; lookups go through
mapGet. -/
def createNodeMap (nodes : List FormNode) : NodeMap := nodes

/-- Lookup in the node map: for duplicate ids the LAST entry wins, as in
JS Map construction, so we search the reversed insertion list. -/
def mapGet (m : NodeMap) (i : String) : Option FormNode :=
  m.reverse.find? (fun n => n.id == i)

/-- getDirectDependencies from dagUtils: map the node's prerequisite ids
through the node map and silently drop the identifiers that do not
resolve. -/
def getDirectDependencies (node : FormNode) (nodeMap : NodeMap) : List FormNode :=
  node.data.prerequisites.filterMap (fun p => mapGet nodeMap p)

/-- Sum of prerequisite-list lengths over nodes whose id is not yet
visited.  queue.length + sumPrereqs is a strictly decreasing measure for
both BFS loops, used to size their fuel. -/
def sumPrereqs (nodeMap : NodeMap) (visited : List String) : Nat :=
  ((nodeMap.filter (fun n => decide (n.id ∉ visited))).map
    (fun n => n.data.prerequisites.length)).sum

/-- The inner per-node recording loop of getTransitiveDependencies: for
each prerequisite id of the dequeued node, in order, when the id is
unvisited and not a direct dependency and resolves and is not already
recorded (deduplicated by id), append the resolved node. -/
def recordPrereqs (nodeMap : NodeMap) (directIds visited : List String) :
    List String → List FormNode → List FormNode
  | [], tacc => tacc
  | p :: ps, tacc =>
    recordPrereqs nodeMap directIds visited ps
      (if p ∈ visited then tacc
       else if p ∈ directIds then tacc
       else
         match mapGet nodeMap p with
         | none => tacc
         | some pn => if p ∈ tacc.map (fun m => m.id) then tacc else tacc ++ [pn])

/-- The BFS loop of getTransitiveDependencies.  Each iteration dequeues an
id; a visited id is skipped; otherwise the id is marked visited, resolved
(unresolvable ids are skipped), the resolved node's unvisited prerequisite
ids are enqueued, and recordPrereqs appends the new transitive results. -/
def bfsTransitive (nodeMap : NodeMap) (directIds : List String) :
    Nat → List String → List String → List FormNode → List FormNode
  | 0, _, _, tacc => tacc
  | _ + 1, _, [], tacc => tacc
  | fuel + 1, visited, c :: rest, tacc =>
    if c ∈ visited then bfsTransitive nodeMap directIds fuel visited rest tacc
    else
      match mapGet nodeMap c with
      | none => bfsTransitive nodeMap directIds fuel (c :: visited) rest tacc
      | some curr =>
        bfsTransitive nodeMap directIds fuel (c :: visited)
          (rest ++ curr.data.prerequisites.filter (fun p => decide (¬ p ∈ c :: visited)))
          (recordPrereqs nodeMap directIds (c :: visited) curr.data.prerequisites tacc)

/-- getTransitiveDependencies from dagUtils: BFS from the node's direct
prerequisite ids, with the visited set seeded with the node's own id and
the direct-dependency id set used for classification.  The fuel bounds the
iteration count on every input (each iteration either shrinks the queue or
consumes one node's prerequisite budget), so it is never exhausted. -/
def getTransitiveDependencies (node : FormNode) (nodeMap : NodeMap) : List FormNode :=
  bfsTransitive nodeMap node.data.prerequisites
    (node.data.prerequisites.length + sumPrereqs nodeMap [] + 1)
    [node.id] node.data.prerequisites []

/-- getAllDependencies from dagUtils: the pair of the two calls above. -/
def getAllDependencies (node : FormNode) (nodeMap : NodeMap) : DependencyInfo :=
  { direct := getDirectDependencies node nodeMap
    transitive := getTransitiveDependencies node nodeMap }

/-- The BFS loop of getAllAncestors: identical queue evolution to
bfsTransitive, but every dequeued-and-resolved node is recorded. -/
def bfsAncestors (nodeMap : NodeMap) :
    Nat → List String → List String → List FormNode → List FormNode
  | 0, _, _, acc => acc
  | _ + 1, _, [], acc => acc
  | fuel + 1, visited, c :: rest, acc =>
    if c ∈ visited then bfsAncestors nodeMap fuel visited rest acc
    else
      match mapGet nodeMap c with
      | none => bfsAncestors nodeMap fuel (c :: visited) rest acc
      | some curr =>
        bfsAncestors nodeMap fuel (c :: visited)
          (rest ++ curr.data.prerequisites.filter (fun p => decide (¬ p ∈ c :: visited)))
          (acc ++ [curr])

/-- getAllAncestors from dagUtils: BFS over prerequisite edges recording
every reachable resolved node once, visited set seeded with the node's own
id.  Fuel as for getTransitiveDependencies. -/
def getAllAncestors (node : FormNode) (nodeMap : NodeMap) : List FormNode :=
  bfsAncestors nodeMap
    (node.data.prerequisites.length + sumPrereqs nodeMap [] + 1)
    [node.id] node.data.prerequisites []

/-- State of the depth-first topological sort: output list, permanently
visited ids, and the ids on the active recursion stack. -/
structure TopoState where
  sorted : List FormNode
  visited : List String
  visiting : List String
  deriving DecidableEq, Repr

/-- The recursive `visit` of topologicalSort: skip a visited node; skip
(with a cycle warning in the source) a node on the active stack; otherwise
push the node on the stack, visit its resolvable prerequisites in order,
then pop it and append it to the output.  The fuel bounds recursion depth:
every frame that descends pushes a distinct id of the node collection on
the stack, so depth never exceeds nodes.length + 1 and the zero-fuel
branch is dead at the fuel used by topologicalSort. -/
def visitNode (nodeMap : NodeMap) : Nat → TopoState → FormNode → TopoState
  | 0, st, _ => st
  | fuel + 1, st, node =>
    if node.id ∈ st.visited then st
    else if node.id ∈ st.visiting then st
    else
      let st2 :=
        node.data.prerequisites.foldl
          (fun s p =>
            match mapGet nodeMap p with
            | none => s
            | some pn => visitNode nodeMap fuel s pn)
          { st with visiting := node.id :: st.visiting }
      { sorted := st2.sorted ++ [node]
        visited := node.id :: st2.visited
        visiting := st2.visiting.erase node.id }

/-- topologicalSort from dagUtils: build the node map from the flat
collection, then run the DFS visit over every input node in order. -/
def topologicalSort (nodes : List FormNode) : List FormNode :=
  (nodes.foldl (fun st n => visitNode (createNodeMap nodes) (nodes.length + 1) st n)
    { sorted := [], visited := [], visiting := [] }).sorted

/-- getFormDefinition from dagUtils: first form whose id equals the node's
component_id (Array.prototype.find). -/
def getFormDefinition (node : FormNode) (graph : BlueprintGraph) : Option FormDefinition :=
  graph.forms.find? (fun form => form.id == node.data.component_id)

/-- getFormFields from dagUtils: resolve the form definition; when it or
its properties record is absent return the empty list; otherwise flatten
the schema, with the JS-truthy default `fieldSchema.title || fieldId` for
the display name. -/
def getFormFields (node : FormNode) (graph : BlueprintGraph) : List FieldInfo :=
  match getFormDefinition node graph with
  | none => []
  | some formDef =>
    match formDef.properties with
    | none => []
    | some props =>
      props.map (fun e =>
        { id := e.1
          name := jsOr e.2.title e.1
          type := e.2.type
          avantosType := e.2.avantos_type })

/-- A selectable data item produced by a provider.  The TypeScript item
type marks `fieldType` and `path` optional; the literal union types of
`type` are modelled as raw strings. -/
structure DataSourceItem where
  id : String
  label : String
  type : String
  sourceId : String
  sourceName : String
  fieldId : String
  fieldName : String
  fieldType : Option String
  path : Option String
  deriving DecidableEq, Repr

/-- A named group of data items contributed by one provider. -/
structure DataSourceGroup where
  id : String
  name : String
  type : String
  items : List DataSourceItem
  description : Option String
  deriving DecidableEq, Repr

/-- A data-source provider: stable identifier, display name, numeric
priority (lower sorts earlier), and the two capability functions. -/
structure DataSourceProvider where
  id : String
  name : String
  priority : Int
  isApplicable : FormNode → BlueprintGraph → Bool
  getDataSources : FormNode → BlueprintGraph → List DataSourceGroup

/-- The registry's provider table: the insertion-ordered entry list of the
JS `Map<string, DataSourceProvider>`. -/
abbrev DataSourceRegistry := List DataSourceProvider

namespace DataSourceRegistry

/-- register: Map.set semantics — an existing id keeps its insertion
position and gets the new value, a fresh id is appended. -/
def register (st : DataSourceRegistry) (p : DataSourceProvider) : DataSourceRegistry :=
  if st.any (fun q => q.id == p.id) then
    st.map (fun q => if q.id == p.id then p else q)
  else st ++ [p]

/-- unregister: Map.delete semantics; unknown ids are a no-op. -/
def unregister (st : DataSourceRegistry) (pid : String) : DataSourceRegistry :=
  st.filter (fun q => decide (¬ q.id = pid))

/-- Stable insertion of a provider before the first strictly-lower-or-equal
position: the earlier-inserted provider stays first among equal
priorities, matching the stable Array.prototype.sort of the source. -/
def insertByPriority (p : DataSourceProvider) :
    List DataSourceProvider → List DataSourceProvider
  | [] => [p]
  | q :: rest =>
    if p.priority ≤ q.priority then p :: q :: rest
    else q :: insertByPriority p rest

/-- Stable sort of the provider list by ascending priority. -/
def sortByPriority : List DataSourceProvider → List DataSourceProvider
  | [] => []
  | p :: rest => insertByPriority p (sortByPriority rest)

/-- getProviders: all registered providers sorted by ascending priority
(stably, ties keeping insertion order). -/
def getProviders (st : DataSourceRegistry) : List DataSourceProvider :=
  sortByPriority st

/-- getAllDataSources: iterate providers in priority order and append the
groups of every applicable provider. -/
def getAllDataSources (st : DataSourceRegistry) (node : FormNode)
    (graph : BlueprintGraph) : List DataSourceGroup :=
  (getProviders st).foldl
    (fun groups p =>
      if p.isApplicable node graph then groups ++ p.getDataSources node graph
      else groups)
    []

end DataSourceRegistry

namespace DirectDependencyFieldsProvider

/-- createGroupForNode of the direct-dependency provider: one group for a
dependency node, its items built from the dependency's extracted fields
(`field.avantosType || field.type` under JS truthiness). -/
def createGroupForNode (node : FormNode) (graph : BlueprintGraph) : DataSourceGroup :=
  { id := "form-" ++ node.id
    name := node.data.name
    type := "form"
    description := some "Direct dependency"
    items := (getFormFields node graph).map (fun field =>
      { id := node.id ++ ":" ++ field.id
        label := node.data.name ++ "." ++ field.name
        type := "form_field"
        sourceId := node.id
        sourceName := node.data.name
        fieldId := field.id
        fieldName := field.name
        fieldType := some (jsOr field.avantosType field.type)
        path := none }) }

/-- isApplicable: the node has at least one (possibly dangling)
prerequisite identifier. -/
def isApplicable (node : FormNode) (_graph : BlueprintGraph) : Bool :=
  decide (0 < node.data.prerequisites.length)

/-- getDataSources: one group per resolved direct dependency. -/
def getDataSources (node : FormNode) (graph : BlueprintGraph) : List DataSourceGroup :=
  (getDirectDependencies node (createNodeMap graph.nodes)).map
    (fun depNode => createGroupForNode depNode graph)

end DirectDependencyFieldsProvider

namespace TransitiveDependencyFieldsProvider

/-- createGroupForNode of the transitive-dependency provider. -/
def createGroupForNode (node : FormNode) (graph : BlueprintGraph) : DataSourceGroup :=
  { id := "form-" ++ node.id
    name := node.data.name
    type := "form"
    description := some "Transitive dependency"
    items := (getFormFields node graph).map (fun field =>
      { id := node.id ++ ":" ++ field.id
        label := node.data.name ++ "." ++ field.name
        type := "form_field"
        sourceId := node.id
        sourceName := node.data.name
        fieldId := field.id
        fieldName := field.name
        fieldType := some (jsOr field.avantosType field.type)
        path := none }) }

/-- isApplicable: the transitive dependency list is non-empty. -/
def isApplicable (node : FormNode) (graph : BlueprintGraph) : Bool :=
  decide (0 < (getTransitiveDependencies node (createNodeMap graph.nodes)).length)

/-- getDataSources: one group per transitive dependency. -/
def getDataSources (node : FormNode) (graph : BlueprintGraph) : List DataSourceGroup :=
  (getTransitiveDependencies node (createNodeMap graph.nodes)).map
    (fun depNode => createGroupForNode depNode graph)

end TransitiveDependencyFieldsProvider

/-- One field of a global data source configuration. -/
structure GlobalField where
  id : String
  name : String
  type : String
  path : Option String
  deriving DecidableEq, Repr

/-- Configuration for one global data source category. -/
structure GlobalDataSourceConfig where
  id : String
  name : String
  description : Option String
  fields : List GlobalField
  deriving DecidableEq, Repr

/-- The module-level default table `globalDataSources`, transcribed from
GlobalDataProvider.ts. -/
def globalDataSources : List GlobalDataSourceConfig :=
  [ { id := "action-properties"
      name := "Action Properties"
      description := some "Properties of the current action/workflow"
      fields :=
        [ { id := "action_id", name := "Action ID", type := "string", path := none }
        , { id := "action_name", name := "Action Name", type := "string", path := none }
        , { id := "action_status", name := "Action Status", type := "string", path := none }
        , { id := "created_at", name := "Created At", type := "datetime", path := none }
        , { id := "updated_at", name := "Updated At", type := "datetime", path := none } ] }
  , { id := "client-org-properties"
      name := "Client Organisation Properties"
      description := some "Properties of the client organization"
      fields :=
        [ { id := "org_id", name := "Organisation ID", type := "string", path := none }
        , { id := "org_name", name := "Organisation Name", type := "string", path := none }
        , { id := "org_email", name := "Organisation Email", type := "email", path := none }
        , { id := "org_country", name := "Country", type := "string", path := none }
        , { id := "org_timezone", name := "Timezone", type := "string", path := none } ] }
  , { id := "user-context"
      name := "User Context"
      description := some "Information about the current user"
      fields :=
        [ { id := "user_id", name := "User ID", type := "string", path := none }
        , { id := "user_email", name := "User Email", type := "email", path := none }
        , { id := "user_name", name := "User Name", type := "string", path := none }
        , { id := "user_role", name := "User Role", type := "string", path := none } ] }
  , { id := "system-context"
      name := "System Context"
      description := some "System-level information"
      fields :=
        [ { id := "current_date", name := "Current Date", type := "date", path := none }
        , { id := "current_time", name := "Current Time", type := "time", path := none }
        , { id := "current_datetime", name := "Current DateTime", type := "datetime", path := none }
        , { id := "environment", name := "Environment", type := "string", path := none } ] } ]

/-- Heap of live source-configuration arrays.  Array objects are referenced
by index; cell 0 is the module-level globalDataSources array. -/
abbrev GDPHeap := List (List GlobalDataSourceConfig)

/-- The initial heap: only the module-level default array exists. -/
def gdpInitHeap : GDPHeap := [globalDataSources]

namespace GlobalDataProvider

/-- A GlobalDataProvider instance is characterised by the reference (heap
index) its `sources` field holds. -/
structure Ref where
  sources : Nat
  deriving DecidableEq, Repr

/-- `new GlobalDataProvider()` with no argument: `customSources ||
globalDataSources` binds the instance to the module-level array itself
(cell 0), not to a copy. -/
def newDefault : Ref := { sources := 0 }

/-- `new GlobalDataProvider(customSources)` with a (truthy) argument:
the caller's array is a fresh object, allocated at the end of the heap. -/
def newCustom (h : GDPHeap) (custom : List GlobalDataSourceConfig) : GDPHeap × Ref :=
  (h ++ [custom], { sources := h.length })

/-- addSource: `this.sources.push(source)` mutates the referenced array in
place. -/
def addSource (h : GDPHeap) (p : Ref) (s : GlobalDataSourceConfig) : GDPHeap :=
  h.set p.sources (h.getD p.sources [] ++ [s])

/-- removeSource: `this.sources = this.sources.filter(...)` allocates a
new array and rebinds the instance's field; the referenced array is not
mutated. -/
def removeSource (h : GDPHeap) (p : Ref) (sid : String) : GDPHeap × Ref :=
  (h ++ [(h.getD p.sources []).filter (fun s => decide (¬ s.id = sid))],
   { sources := h.length })

/-- The pure group construction of getDataSources from a source-array
value. -/
def groupsOfConfigs (configs : List GlobalDataSourceConfig) : List DataSourceGroup :=
  configs.map (fun source =>
    { id := "global-" ++ source.id
      name := source.name
      type := "global"
      description := source.description
      items := source.fields.map (fun field =>
        { id := source.id ++ ":" ++ field.id
          label := source.name ++ "." ++ field.name
          type := "global"
          sourceId := source.id
          sourceName := source.name
          fieldId := field.id
          fieldName := field.name
          fieldType := some field.type
          path := some (jsOr field.path (source.id ++ "." ++ field.id)) }) })

/-- getDataSources of an instance: read the referenced array and build the
groups. -/
def getDataSources (h : GDPHeap) (p : Ref) : List DataSourceGroup :=
  groupsOfConfigs (h.getD p.sources [])

end GlobalDataProvider

/-- The error value used by graphService when the node id does not
resolve. -/
structure ApiError where
  message : String
  deriving DecidableEq, Repr

/-- The shape of the `mapping` argument of updatePrefillMapping. -/
structure UpdateMappingInput where
  type : String
  sourceFormId : Option String
  sourceFieldId : String
  deriving DecidableEq, Repr

/-- Association-list lookup with JS record semantics (keys are unique in
records produced by the code, the first match is the entry). -/
def recLookup (l : List (String × PrefillMapping)) (k : String) : Option PrefillMapping :=
  (l.find? (fun e => e.1 == k)).map (fun e => e.2)

/-- Key update with JS record semantics: an existing key keeps its
position, a fresh key is appended. -/
def recSet (l : List (String × PrefillMapping)) (k : String) (v : PrefillMapping) :
    List (String × PrefillMapping) :=
  if l.any (fun e => e.1 == k) then
    l.map (fun e => if e.1 == k then (k, v) else e)
  else l ++ [(k, v)]

/-- Key deletion with JS record semantics. -/
def recDelete (l : List (String × PrefillMapping)) (k : String) :
    List (String × PrefillMapping) :=
  l.filter (fun e => decide (¬ e.1 = k))

/-- The PrefillMapping value stored by updatePrefillMapping: the type
string is carried over, sourceFormId is kept only when truthy
(`...(mapping.sourceFormId && {sourceFormId})`), and no sourcePath is
written. -/
def mkStoredMapping (m : UpdateMappingInput) : PrefillMapping :=
  { type := m.type
    sourceFormId := jsOrOpt m.sourceFormId
    sourceFieldId := m.sourceFieldId
    sourcePath := none }

/-- updatePrefillMapping from graphService: locate the first node with the
given id (error when absent), then rebuild the graph with that node's
input_mapping record updated — entry removed when the mapping argument is
null, added or updated otherwise.  The ResultAsync of the source is
modelled as an Except value, the surrounding code being synchronous. -/
def updatePrefillMapping (graph : BlueprintGraph) (nodeId fieldId : String)
    (mapping : Option UpdateMappingInput) : Except ApiError BlueprintGraph :=
  let nodeIndex := graph.nodes.findIdx (fun n => n.id == nodeId)
  if h : nodeIndex < graph.nodes.length then
    let node := graph.nodes.get ⟨nodeIndex, h⟩
    let updatedMapping :=
      match mapping with
      | none => recDelete node.data.input_mapping fieldId
      | some m => recSet node.data.input_mapping fieldId (mkStoredMapping m)
    Except.ok
      { graph with
        nodes := graph.nodes.set nodeIndex
          { node with data := { node.data with input_mapping := updatedMapping } } }
  else
    Except.error { message := "Node with id " ++ nodeId ++ " not found" }

/-- The ids of a list of nodes. -/
def idsOf (l : List FormNode) : List String :=
  l.map (fun n => n.id)

/-- The prerequisite edge relation induced by a node map: u → v when one
of u's prerequisite ids resolves to v. -/
def EdgeRel (nodeMap : NodeMap) (u v : FormNode) : Prop :=
  ∃ p, p ∈ u.data.prerequisites ∧ mapGet nodeMap p = some v

theorem mapGet_id (m : NodeMap) (i : String) (n : FormNode)
    (h : mapGet m i = some n) : n.id = i := by
  have hp := List.find?_some h
  exact beq_iff_eq.mp hp

theorem mapGet_mem (m : NodeMap) (i : String) (n : FormNode)
    (h : mapGet m i = some n) : n ∈ m := by
  have hp := List.mem_of_find?_eq_some h
  exact List.mem_reverse.mp hp

theorem mapGet_of_mem_nodup (m : NodeMap) (n : FormNode)
    (hm : n ∈ m) (hnd : (idsOf m).Nodup) : mapGet m n.id = some n := by
  cases hfind : mapGet m n.id with
  | none =>
    exfalso
    have hnone := List.find?_eq_none.mp hfind n (List.mem_reverse.mpr hm)
    simp at hnone
  | some k =>
    have hkid : k.id = n.id := mapGet_id m n.id k hfind
    have hkm : k ∈ m := mapGet_mem m n.id k hfind
    have : k = n := List.inj_on_of_nodup_map hnd hkm hm hkid
    rw [this]

theorem sumPrereqs_cons (hd : FormNode) (tl : NodeMap) (v : List String) :
    sumPrereqs (hd :: tl) v =
      (if hd.id ∈ v then 0 else hd.data.prerequisites.length) + sumPrereqs tl v := by
  by_cases h : hd.id ∈ v
  · simp [sumPrereqs, List.filter_cons, h]
  · simp [sumPrereqs, List.filter_cons, h]

theorem sumPrereqs_cons_le (m : NodeMap) (c : String) (v : List String) :
    sumPrereqs m (c :: v) ≤ sumPrereqs m v := by
  induction m with
  | nil => simp [sumPrereqs]
  | cons hd tl ih =>
    rw [sumPrereqs_cons, sumPrereqs_cons]
    have hif : (if hd.id ∈ c :: v then 0 else hd.data.prerequisites.length) ≤
        (if hd.id ∈ v then 0 else hd.data.prerequisites.length) := by
      by_cases h1 : hd.id ∈ v
      · simp [h1, List.mem_cons_of_mem _ h1]
      · by_cases h2 : hd.id ∈ c :: v <;> simp [h1, h2]
    omega

theorem sumPrereqs_drop (m : NodeMap) (n : FormNode) (c : String) (v : List String)
    (hm : n ∈ m) (hid : n.id = c) (hv : c ∉ v) :
    sumPrereqs m (c :: v) + n.data.prerequisites.length ≤ sumPrereqs m v := by
  induction m with
  | nil => cases hm
  | cons hd tl ih =>
    rw [sumPrereqs_cons, sumPrereqs_cons]
    rcases List.mem_cons.mp hm with heq | htl
    · subst heq
      have h2 : n.id ∈ c :: v := by rw [hid]; exact List.mem_cons_self _ _
      have h1 : n.id ∉ v := by rw [hid]; exact hv
      rw [if_pos h2, if_neg h1]
      have := sumPrereqs_cons_le tl c v
      omega
    · have ihh := ih htl
      have hif : (if hd.id ∈ c :: v then 0 else hd.data.prerequisites.length) ≤
          (if hd.id ∈ v then 0 else hd.data.prerequisites.length) := by
        by_cases h1 : hd.id ∈ v
        · simp [h1, List.mem_cons_of_mem _ h1]
        · by_cases h2 : hd.id ∈ c :: v <;> simp [h1, h2]
      omega

theorem recordPrereqs_sub (nm : NodeMap) (dir v : List String) :
    ∀ (ps : List String) (tacc : List FormNode) (x : FormNode),
      x ∈ tacc → x ∈ recordPrereqs nm dir v ps tacc := by
  intro ps
  induction ps with
  | nil => intro tacc x hx; simpa [recordPrereqs] using hx
  | cons p ps ih =>
    intro tacc x hx
    simp only [recordPrereqs]
    apply ih
    split
    · exact hx
    · split
      · exact hx
      · cases hg : mapGet nm p with
        | none => simpa [hg] using hx
        | some pn =>
          simp only [hg]
          split
          · exact hx
          · exact List.mem_append_left _ hx

theorem recordPrereqs_idsub (nm : NodeMap) (dir v : List String)
    (ps : List String) (tacc : List FormNode) (i : String)
    (hi : i ∈ idsOf tacc) : i ∈ idsOf (recordPrereqs nm dir v ps tacc) := by
  simp only [idsOf, List.mem_map] at hi ⊢
  obtain ⟨x, hx, hxi⟩ := hi
  exact ⟨x, recordPrereqs_sub nm dir v ps tacc x hx, hxi⟩

theorem recordPrereqs_src (nm : NodeMap) (dir v : List String) :
    ∀ (ps : List String) (tacc : List FormNode) (x : FormNode),
      x ∈ recordPrereqs nm dir v ps tacc →
      x ∈ tacc ∨ (x.id ∈ ps ∧ x.id ∉ v ∧ x.id ∉ dir ∧ mapGet nm x.id = some x) := by
  intro ps
  induction ps with
  | nil => intro tacc x hx; exact Or.inl (by simpa [recordPrereqs] using hx)
  | cons p ps ih =>
    intro tacc x hx
    simp only [recordPrereqs] at hx
    rcases ih _ x hx with hin | ⟨h1, h2, h3, h4⟩
    · by_cases hv : p ∈ v
      · simp only [if_pos hv] at hin; exact Or.inl hin
      · by_cases hd : p ∈ dir
        · simp only [if_neg hv, if_pos hd] at hin; exact Or.inl hin
        · cases hg : mapGet nm p with
          | none => simp only [if_neg hv, if_neg hd, hg] at hin; exact Or.inl hin
          | some pn =>
            simp only [if_neg hv, if_neg hd, hg] at hin
            by_cases hdup : p ∈ tacc.map (fun m => m.id)
            · simp only [if_pos hdup] at hin; exact Or.inl hin
            · simp only [if_neg hdup] at hin
              rcases List.mem_append.mp hin with hin | hnew
              · exact Or.inl hin
              · have hxpn : x = pn := List.mem_singleton.mp hnew
                subst hxpn
                have hpid : x.id = p := mapGet_id nm p x hg
                refine Or.inr ⟨?_, ?_, ?_, ?_⟩
                · rw [hpid]; exact List.mem_cons_self _ _
                · rw [hpid]; exact hv
                · rw [hpid]; exact hd
                · rw [hpid]; exact hg
    · exact Or.inr ⟨List.mem_cons_of_mem _ h1, h2, h3, h4⟩

theorem recordPrereqs_complete (nm : NodeMap) (dir v : List String) :
    ∀ (ps : List String) (tacc : List FormNode) (p : String),
      p ∈ ps → p ∉ v → p ∉ dir → (mapGet nm p).isSome →
      p ∈ idsOf (recordPrereqs nm dir v ps tacc) := by
  intro ps
  induction ps with
  | nil => intro tacc p hp; cases hp
  | cons q ps ih =>
    intro tacc p hp hv hd hs
    rcases List.mem_cons.mp hp with rfl | hps
    · simp only [recordPrereqs, if_neg hv, if_neg hd]
      cases hg : mapGet nm p with
      | none => rw [hg] at hs; cases hs
      | some pn =>
        simp only [hg]
        by_cases hdup : p ∈ tacc.map (fun m => m.id)
        · rw [if_pos hdup]
          exact recordPrereqs_idsub nm dir v ps tacc p hdup
        · rw [if_neg hdup]
          apply recordPrereqs_idsub
          have : pn.id = p := mapGet_id nm p pn hg
          simp [idsOf, this]
    · simp only [recordPrereqs]
      exact ih _ p hps hv hd hs

theorem recordPrereqs_nodup (nm : NodeMap) (dir v : List String) :
    ∀ (ps : List String) (tacc : List FormNode),
      (idsOf tacc).Nodup → (idsOf (recordPrereqs nm dir v ps tacc)).Nodup := by
  intro ps
  induction ps with
  | nil => intro tacc h; simpa [recordPrereqs] using h
  | cons p ps ih =>
    intro tacc h
    simp only [recordPrereqs]
    apply ih
    split
    · exact h
    · split
      · exact h
      · cases hg : mapGet nm p with
        | none => simpa [hg] using h
        | some pn =>
          simp only [hg]
          split
          · exact h
          · rename_i hdup
            have hpid : pn.id = p := mapGet_id nm p pn hg
            simp only [idsOf, List.map_append, List.map_cons, List.map_nil]
            rw [List.nodup_append]
            refine ⟨h, List.nodup_singleton _, ?_⟩
            intro a ha hb
            have : a = pn.id := by simpa using hb
            subst this
            rw [hpid] at ha
            exact hdup ha

theorem bfsTransitive_src (nm : NodeMap) (dir : List String) :
    ∀ (fuel : Nat) (v q : List String) (tacc : List FormNode) (x : FormNode),
      x ∈ bfsTransitive nm dir fuel v q tacc →
      x ∈ tacc ∨ (x.id ∉ v ∧ x.id ∉ dir ∧ mapGet nm x.id = some x) := by
  intro fuel
  induction fuel with
  | zero => intro v q tacc x hx; exact Or.inl (by simpa [bfsTransitive] using hx)
  | succ f ih =>
    intro v q tacc x hx
    cases q with
    | nil => exact Or.inl (by simpa [bfsTransitive] using hx)
    | cons c rest =>
      by_cases hc : c ∈ v
      · rw [bfsTransitive, if_pos hc] at hx
        exact ih v rest tacc x hx
      · cases hg : mapGet nm c with
        | none =>
          rw [bfsTransitive, if_neg hc, hg] at hx
          rcases ih _ rest tacc x hx with h | ⟨h1, h2, h3⟩
          · exact Or.inl h
          · exact Or.inr ⟨fun hxv => h1 (List.mem_cons_of_mem _ hxv), h2, h3⟩
        | some curr =>
          rw [bfsTransitive, if_neg hc, hg] at hx
          rcases ih _ _ _ x hx with h | ⟨h1, h2, h3⟩
          · rcases recordPrereqs_src nm dir (c :: v) curr.data.prerequisites tacc x h with
              h' | ⟨_, hh2, hh3, hh4⟩
            · exact Or.inl h'
            · exact Or.inr ⟨fun hxv => hh2 (List.mem_cons_of_mem _ hxv), hh3, hh4⟩
          · exact Or.inr ⟨fun hxv => h1 (List.mem_cons_of_mem _ hxv), h2, h3⟩

theorem bfsAncestors_src (nm : NodeMap) :
    ∀ (fuel : Nat) (v q : List String) (acc : List FormNode) (x : FormNode),
      x ∈ bfsAncestors nm fuel v q acc →
      x ∈ acc ∨ (x.id ∉ v ∧ mapGet nm x.id = some x) := by
  intro fuel
  induction fuel with
  | zero => intro v q acc x hx; exact Or.inl (by simpa [bfsAncestors] using hx)
  | succ f ih =>
    intro v q acc x hx
    cases q with
    | nil => exact Or.inl (by simpa [bfsAncestors] using hx)
    | cons c rest =>
      by_cases hc : c ∈ v
      · rw [bfsAncestors, if_pos hc] at hx
        exact ih v rest acc x hx
      · cases hg : mapGet nm c with
        | none =>
          rw [bfsAncestors, if_neg hc, hg] at hx
          rcases ih _ rest acc x hx with h | ⟨h1, h2⟩
          · exact Or.inl h
          · exact Or.inr ⟨fun hxv => h1 (List.mem_cons_of_mem _ hxv), h2⟩
        | some curr =>
          rw [bfsAncestors, if_neg hc, hg] at hx
          rcases ih _ _ _ x hx with h | ⟨h1, h2⟩
          · rcases List.mem_append.mp h with h' | h'
            · exact Or.inl h'
            · have hxc : x = curr := List.mem_singleton.mp h'
              subst hxc
              have hcid : x.id = c := mapGet_id nm c x hg
              refine Or.inr ⟨?_, ?_⟩
              · rw [hcid]; exact hc
              · rw [hcid]; exact hg
          · exact Or.inr ⟨fun hxv => h1 (List.mem_cons_of_mem _ hxv), h2⟩

theorem bfsTransitive_nodup (nm : NodeMap) (dir : List String) :
    ∀ (fuel : Nat) (v q : List String) (tacc : List FormNode),
      (idsOf tacc).Nodup → (idsOf (bfsTransitive nm dir fuel v q tacc)).Nodup := by
  intro fuel
  induction fuel with
  | zero => intro v q tacc h; simpa [bfsTransitive] using h
  | succ f ih =>
    intro v q tacc h
    cases q with
    | nil => simpa [bfsTransitive] using h
    | cons c rest =>
      by_cases hc : c ∈ v
      · rw [bfsTransitive, if_pos hc]
        exact ih v rest tacc h
      · cases hg : mapGet nm c with
        | none =>
          rw [bfsTransitive, if_neg hc, hg]
          exact ih _ rest tacc h
        | some curr =>
          rw [bfsTransitive, if_neg hc, hg]
          exact ih _ _ _ (recordPrereqs_nodup nm dir (c :: v) curr.data.prerequisites tacc h)

theorem mem_idsOf (l : List FormNode) (i : String) :
    i ∈ idsOf l ↔ ∃ x, x ∈ l ∧ x.id = i := by
  simp [idsOf]

theorem idsOf_append (l1 l2 : List FormNode) :
    idsOf (l1 ++ l2) = idsOf l1 ++ idsOf l2 := by
  simp [idsOf]

theorem transAnc_coupled (nm : NodeMap) (dir : List String) :
    ∀ (fuel : Nat) (v q : List String) (T A : List FormNode),
      q.length + sumPrereqs nm v ≤ fuel →
      (∀ x ∈ T, x.id ∉ dir) →
      (∀ x ∈ T, x.id ∈ idsOf A ∨ (x.id ∈ q ∧ x.id ∉ v ∧ (mapGet nm x.id).isSome)) →
      (∀ i ∈ q, i ∉ v → (mapGet nm i).isSome → i ∉ dir → i ∈ idsOf T) →
      (∀ x ∈ A, x.id ∈ idsOf T ∨ (x.id ∈ dir ∧ (mapGet nm x.id).isSome)) →
      (∀ i ∈ dir, (mapGet nm i).isSome → i ∈ idsOf A ∨ (i ∈ q ∧ i ∉ v)) →
      (∀ i ∈ idsOf (bfsTransitive nm dir fuel v q T),
          i ∈ idsOf (bfsAncestors nm fuel v q A) ∧ i ∉ dir) ∧
      (∀ i ∈ idsOf (bfsAncestors nm fuel v q A),
          i ∈ idsOf (bfsTransitive nm dir fuel v q T) ∨
            (i ∈ dir ∧ (mapGet nm i).isSome)) ∧
      (∀ i ∈ dir, (mapGet nm i).isSome → i ∈ idsOf (bfsAncestors nm fuel v q A)) := by
  intro fuel
  induction fuel with
  | zero =>
    intro v q T A hq i1 i2 i3 i5 idir
    have hq0 : q.length = 0 := by omega
    have hqnil : q = [] := List.length_eq_zero.mp hq0
    subst hqnil
    simp only [bfsTransitive, bfsAncestors]
    refine ⟨?_, ?_, ?_⟩
    · intro i hi
      obtain ⟨x, hx, rfl⟩ := (mem_idsOf T i).mp hi
      rcases i2 x hx with h | ⟨h1, _, _⟩
      · exact ⟨h, i1 x hx⟩
      · cases h1
    · intro i hi
      obtain ⟨x, hx, rfl⟩ := (mem_idsOf A i).mp hi
      rcases i5 x hx with h | h
      · exact Or.inl h
      · exact Or.inr h
    · intro i hi hs
      rcases idir i hi hs with h | ⟨h1, _⟩
      · exact h
      · cases h1
  | succ f ih =>
    intro v q T A hq i1 i2 i3 i5 idir
    cases q with
    | nil =>
      simp only [bfsTransitive, bfsAncestors]
      refine ⟨?_, ?_, ?_⟩
      · intro i hi
        obtain ⟨x, hx, rfl⟩ := (mem_idsOf T i).mp hi
        rcases i2 x hx with h | ⟨h1, _, _⟩
        · exact ⟨h, i1 x hx⟩
        · cases h1
      · intro i hi
        obtain ⟨x, hx, rfl⟩ := (mem_idsOf A i).mp hi
        rcases i5 x hx with h | h
        · exact Or.inl h
        · exact Or.inr h
      · intro i hi hs
        rcases idir i hi hs with h | ⟨h1, _⟩
        · exact h
        · cases h1
    | cons c rest =>
      by_cases hc : c ∈ v
      · rw [bfsTransitive, bfsAncestors, if_pos hc, if_pos hc]
        apply ih v rest T A
        · simp only [List.length_cons] at hq; omega
        · exact i1
        · intro x hx
          rcases i2 x hx with h | ⟨h1, h2, h3⟩
          · exact Or.inl h
          · rcases List.mem_cons.mp h1 with heq | hin
            · exact absurd (heq ▸ hc) h2
            · exact Or.inr ⟨hin, h2, h3⟩
        · intro i hiq hiv hs hd
          exact i3 i (List.mem_cons_of_mem _ hiq) hiv hs hd
        · exact i5
        · intro i hi hs
          rcases idir i hi hs with h | ⟨h1, h2⟩
          · exact Or.inl h
          · rcases List.mem_cons.mp h1 with heq | hin
            · exact absurd (heq ▸ hc) h2
            · exact Or.inr ⟨hin, h2⟩
      · cases hg : mapGet nm c with
        | none =>
          rw [bfsTransitive, bfsAncestors, if_neg hc, if_neg hc, hg]
          apply ih (c :: v) rest T A
          · have hm := sumPrereqs_cons_le nm c v
            simp only [List.length_cons] at hq; omega
          · exact i1
          · intro x hx
            rcases i2 x hx with h | ⟨h1, h2, h3⟩
            · exact Or.inl h
            · have hxc : x.id ≠ c := by
                intro heq
                rw [heq, hg] at h3
                cases h3
              rcases List.mem_cons.mp h1 with heq | hin
              · exact absurd heq hxc
              · refine Or.inr ⟨hin, ?_, h3⟩
                intro hv2
                rcases List.mem_cons.mp hv2 with heq | hin2
                · exact hxc heq
                · exact h2 hin2
          · intro i hiq hiv hs hd
            refine i3 i (List.mem_cons_of_mem _ hiq) ?_ hs hd
            intro hin
            exact hiv (List.mem_cons_of_mem _ hin)
          · exact i5
          · intro i hi hs
            rcases idir i hi hs with h | ⟨h1, h2⟩
            · exact Or.inl h
            · have hic : i ≠ c := by
                intro heq
                rw [heq, hg] at hs
                cases hs
              rcases List.mem_cons.mp h1 with heq | hin
              · exact absurd heq hic
              · refine Or.inr ⟨hin, ?_⟩
                intro hv2
                rcases List.mem_cons.mp hv2 with heq | hin2
                · exact hic heq
                · exact h2 hin2
        | some curr =>
          rw [bfsTransitive, bfsAncestors, if_neg hc, if_neg hc, hg]
          have hcid : curr.id = c := mapGet_id nm c curr hg
          have hcmem : curr ∈ nm := mapGet_mem nm c curr hg
          apply ih (c :: v)
            (rest ++ curr.data.prerequisites.filter (fun p => decide (¬ p ∈ c :: v)))
            (recordPrereqs nm dir (c :: v) curr.data.prerequisites T)
            (A ++ [curr])
          · have hd := sumPrereqs_drop nm curr c v hcmem hcid hc
            have hfl : (curr.data.prerequisites.filter
                (fun p => decide (¬ p ∈ c :: v))).length ≤
                curr.data.prerequisites.length := List.length_filter_le _ _
            simp only [List.length_append, List.length_cons] at hq ⊢
            omega
          · intro x hx
            rcases recordPrereqs_src nm dir (c :: v) curr.data.prerequisites T x hx with
              h | ⟨_, _, h3, _⟩
            · exact i1 x h
            · exact h3
          · intro x hx
            rcases recordPrereqs_src nm dir (c :: v) curr.data.prerequisites T x hx with
              h | ⟨h1, h2, _, h4⟩
            · rcases i2 x h with hA | ⟨hq1, hq2, hq3⟩
              · exact Or.inl (by rw [idsOf_append]; exact List.mem_append_left _ hA)
              · by_cases hxc : x.id = c
                · refine Or.inl ?_
                  rw [idsOf_append]
                  refine List.mem_append_right _ ?_
                  simp [idsOf, hcid, hxc]
                · rcases List.mem_cons.mp hq1 with heq | hin
                  · exact absurd heq hxc
                  · refine Or.inr ⟨List.mem_append_left _ hin, ?_, hq3⟩
                    intro hv2
                    rcases List.mem_cons.mp hv2 with heq | hin2
                    · exact hxc heq
                    · exact hq2 hin2
            · refine Or.inr ⟨?_, h2, by rw [h4]; rfl⟩
              refine List.mem_append_right _ ?_
              rw [List.mem_filter]
              exact ⟨h1, by simpa using h2⟩
          · intro i hiq hiv hs hd
            rcases List.mem_append.mp hiq with hin | hin
            · refine recordPrereqs_idsub nm dir (c :: v) curr.data.prerequisites T i ?_
              refine i3 i (List.mem_cons_of_mem _ hin) ?_ hs hd
              intro hv2
              exact hiv (List.mem_cons_of_mem _ hv2)
            · rw [List.mem_filter] at hin
              exact recordPrereqs_complete nm dir (c :: v) curr.data.prerequisites T i
                hin.1 (by simpa using hin.2) hd hs
          · intro x hx
            rcases List.mem_append.mp hx with hin | hin
            · rcases i5 x hin with h | h
              · exact Or.inl
                  (recordPrereqs_idsub nm dir (c :: v) curr.data.prerequisites T _ h)
              · exact Or.inr h
            · have hxc : x = curr := List.mem_singleton.mp hin
              subst hxc
              by_cases hcd : c ∈ dir
              · refine Or.inr ⟨by rw [hcid]; exact hcd, by rw [hcid, hg]; rfl⟩
              · refine Or.inl ?_
                refine recordPrereqs_idsub nm dir (c :: v) x.data.prerequisites T _ ?_
                rw [hcid]
                refine i3 c (List.mem_cons_self _ _) hc (by rw [hg]; rfl) hcd
          · intro i hi hs
            rcases idir i hi hs with h | ⟨h1, h2⟩
            · exact Or.inl (by rw [idsOf_append]; exact List.mem_append_left _ h)
            · by_cases hic : i = c
              · refine Or.inl ?_
                rw [idsOf_append]
                refine List.mem_append_right _ ?_
                simp [idsOf, hcid, hic]
              · rcases List.mem_cons.mp h1 with heq | hin
                · exact absurd heq hic
                · refine Or.inr ⟨List.mem_append_left _ hin, ?_⟩
                  intro hv2
                  rcases List.mem_cons.mp hv2 with heq | hin2
                  · exact hic heq
                  · exact h2 hin2

/-- One fold step of the prerequisite loop inside visitNode (proof-layer
abbreviation for the lambda in the definition). -/
def visitStep (nm : NodeMap) (f : Nat) (s : TopoState) (p : String) : TopoState :=
  match mapGet nm p with
  | none => s
  | some pn => visitNode nm f s pn

theorem visitNode_succ_eq (nm : NodeMap) (f : Nat) (st : TopoState) (node : FormNode) :
    visitNode nm (f + 1) st node =
      if node.id ∈ st.visited then st
      else if node.id ∈ st.visiting then st
      else
        let st2 := node.data.prerequisites.foldl (visitStep nm f)
          { st with visiting := node.id :: st.visiting }
        { sorted := st2.sorted ++ [node]
          visited := node.id :: st2.visited
          visiting := st2.visiting.erase node.id } := rfl

theorem foldl_visitStep_pres (nm : NodeMap) (f : Nat) (P : TopoState → TopoState → Prop)
    (hrefl : ∀ s, P s s) (htrans : ∀ a b c, P a b → P b c → P a c)
    (hstep : ∀ (s : TopoState) (p : String) (pn : FormNode),
      mapGet nm p = some pn → P s (visitNode nm f s pn)) :
    ∀ (l : List String) (s : TopoState), P s (l.foldl (visitStep nm f) s) := by
  intro l
  induction l with
  | nil => intro s; exact hrefl s
  | cons p ps ihl =>
    intro s
    rw [List.foldl_cons]
    refine htrans _ _ _ ?_ (ihl _)
    unfold visitStep
    cases hg : mapGet nm p with
    | none => exact hrefl s
    | some pn => exact hstep s p pn hg

theorem visitNode_visiting (nm : NodeMap) :
    ∀ (fuel : Nat) (st : TopoState) (n : FormNode),
      (visitNode nm fuel st n).visiting = st.visiting := by
  intro fuel
  induction fuel with
  | zero => intro st n; rfl
  | succ f ih =>
    intro st n
    rw [visitNode_succ_eq]
    split
    · rfl
    · split
      · rfl
      · have hfold := foldl_visitStep_pres nm f (fun a b => b.visiting = a.visiting)
          (fun s => rfl) (fun a b c h1 h2 => h2.trans h1)
          (fun s p pn _ => ih s pn) n.data.prerequisites
          { st with visiting := n.id :: st.visiting }
        simp only
        rw [hfold]
        exact List.erase_cons_head _ _

theorem visitNode_visited_sub (nm : NodeMap) :
    ∀ (fuel : Nat) (st : TopoState) (n : FormNode) (i : String),
      i ∈ st.visited → i ∈ (visitNode nm fuel st n).visited := by
  intro fuel
  induction fuel with
  | zero => intro st n i hi; exact hi
  | succ f ih =>
    intro st n i hi
    rw [visitNode_succ_eq]
    split
    · exact hi
    · split
      · exact hi
      · have hfold := foldl_visitStep_pres nm f
          (fun a b => ∀ j ∈ a.visited, j ∈ b.visited)
          (fun s j hj => hj) (fun a b c h1 h2 j hj => h2 j (h1 j hj))
          (fun s p pn _ j hj => ih s pn j hj) n.data.prerequisites
          { st with visiting := n.id :: st.visiting }
        simp only
        exact List.mem_cons_of_mem _ (hfold i hi)

theorem visitNode_sorted_append (nm : NodeMap) :
    ∀ (fuel : Nat) (st : TopoState) (n : FormNode),
      ∃ t, (visitNode nm fuel st n).sorted = st.sorted ++ t := by
  intro fuel
  induction fuel with
  | zero => intro st n; exact ⟨[], by simp [visitNode]⟩
  | succ f ih =>
    intro st n
    rw [visitNode_succ_eq]
    split
    · exact ⟨[], by simp⟩
    · split
      · exact ⟨[], by simp⟩
      · have hfold := foldl_visitStep_pres nm f
          (fun a b => ∃ t, b.sorted = a.sorted ++ t)
          (fun s => ⟨[], by simp⟩)
          (fun a b c h1 h2 => by
            obtain ⟨t1, h1⟩ := h1
            obtain ⟨t2, h2⟩ := h2
            exact ⟨t1 ++ t2, by rw [h2, h1, List.append_assoc]⟩)
          (fun s p pn _ => ih s pn) n.data.prerequisites
          { st with visiting := n.id :: st.visiting }
        obtain ⟨t, ht⟩ := hfold
        exact ⟨t ++ [n], by simp only; rw [ht, List.append_assoc]⟩

theorem visitNode_gain (nm : NodeMap) :
    ∀ (fuel : Nat) (st : TopoState) (n : FormNode) (i : String),
      i ∈ (visitNode nm fuel st n).visited → i ∈ st.visited ∨ i ∉ st.visiting := by
  intro fuel
  induction fuel with
  | zero => intro st n i hi; exact Or.inl hi
  | succ f ih =>
    intro st n i hi
    rw [visitNode_succ_eq] at hi
    by_cases h1 : n.id ∈ st.visited
    · rw [if_pos h1] at hi; exact Or.inl hi
    · by_cases h2 : n.id ∈ st.visiting
      · rw [if_neg h1, if_pos h2] at hi; exact Or.inl hi
      · rw [if_neg h1, if_neg h2] at hi
        simp only at hi
        have hfold := foldl_visitStep_pres nm f
          (fun a b => b.visiting = a.visiting ∧
            ∀ j ∈ b.visited, j ∈ a.visited ∨ j ∉ a.visiting)
          (fun s => ⟨rfl, fun j hj => Or.inl hj⟩)
          (fun a b c hab hbc => by
            refine ⟨hbc.1.trans hab.1, fun j hj => ?_⟩
            rcases hbc.2 j hj with h | h
            · exact hab.2 j h
            · rw [hab.1] at h
              exact Or.inr h)
          (fun s p pn _ => ⟨visitNode_visiting nm f s pn, fun j hj => ih s pn j hj⟩)
          n.data.prerequisites { st with visiting := n.id :: st.visiting }
        rcases List.mem_cons.mp hi with heq | hin
        · exact Or.inr (heq ▸ h2)
        · rcases hfold.2 i hin with h | h
          · exact Or.inl h
          · refine Or.inr fun hv => h (List.mem_cons_of_mem _ hv)

theorem visitNode_self (nm : NodeMap) (f : Nat) (st : TopoState) (n : FormNode) :
    n.id ∈ (visitNode nm (f + 1) st n).visited ∨ n.id ∈ st.visiting := by
  rw [visitNode_succ_eq]
  by_cases h1 : n.id ∈ st.visited
  · rw [if_pos h1]; exact Or.inl h1
  · by_cases h2 : n.id ∈ st.visiting
    · rw [if_neg h1, if_pos h2]; exact Or.inr h2
    · rw [if_neg h1, if_neg h2]
      simp only
      exact Or.inl (List.mem_cons_self _ _)

/-- The bookkeeping invariant of the DFS state: the visited ids are
exactly the ids of the output in reverse push order, without duplicates. -/
def TopoInv (st : TopoState) : Prop :=
  st.visited = (idsOf st.sorted).reverse ∧ (idsOf st.sorted).Nodup

theorem visitNode_inv (nm : NodeMap) :
    ∀ (fuel : Nat) (st : TopoState) (n : FormNode),
      TopoInv st → TopoInv (visitNode nm fuel st n) := by
  intro fuel
  induction fuel with
  | zero => intro st n h; exact h
  | succ f ih =>
    intro st n h
    rw [visitNode_succ_eq]
    by_cases h1 : n.id ∈ st.visited
    · rw [if_pos h1]; exact h
    · by_cases h2 : n.id ∈ st.visiting
      · rw [if_neg h1, if_pos h2]; exact h
      · rw [if_neg h1, if_neg h2]
        simp only
        have hfold := foldl_visitStep_pres nm f
          (fun a b => (TopoInv a → TopoInv b) ∧ b.visiting = a.visiting ∧
            (∀ j ∈ b.visited, j ∈ a.visited ∨ j ∉ a.visiting))
          (fun s => ⟨id, rfl, fun j hj => Or.inl hj⟩)
          (fun a b c hab hbc => by
            refine ⟨fun hx => hbc.1 (hab.1 hx), hbc.2.1.trans hab.2.1, fun j hj => ?_⟩
            rcases hbc.2.2 j hj with hh | hh
            · exact hab.2.2 j hh
            · rw [hab.2.1] at hh
              exact Or.inr hh)
          (fun s p pn _ =>
            ⟨ih s pn, visitNode_visiting nm f s pn, fun j hj => visitNode_gain nm f s pn j hj⟩)
          n.data.prerequisites { st with visiting := n.id :: st.visiting }
        have hinv1 : TopoInv { st with visiting := n.id :: st.visiting } := h
        have hinv2 := hfold.1 hinv1
        have hgain := hfold.2.2
        set st2 := n.data.prerequisites.foldl (visitStep nm f)
          { st with visiting := n.id :: st.visiting } with hst2
        have hnotin : n.id ∉ idsOf st2.sorted := by
          intro hmem
          have : n.id ∈ st2.visited := by
            rw [hinv2.1, List.mem_reverse]; exact hmem
          rcases hgain n.id this with hh | hh
          · exact h1 hh
          · exact hh (List.mem_cons_self _ _)
        constructor
        · show n.id :: st2.visited = (idsOf (st2.sorted ++ [n])).reverse
          rw [idsOf_append, List.reverse_append, hinv2.1]
          simp [idsOf]
        · show (idsOf (st2.sorted ++ [n])).Nodup
          rw [idsOf_append]
          rw [List.nodup_append]
          refine ⟨hinv2.2, by simp [idsOf], ?_⟩
          intro a ha hb
          have : a = n.id := by simpa [idsOf] using hb
          subst this
          exact hnotin ha

theorem visitNode_sortedmem (nm : NodeMap) :
    ∀ (fuel : Nat) (st : TopoState) (n : FormNode),
      n ∈ nm → (∀ m ∈ st.sorted, m ∈ nm) →
      ∀ m ∈ (visitNode nm fuel st n).sorted, m ∈ nm := by
  intro fuel
  induction fuel with
  | zero => intro st n _ hst m hm; exact hst m hm
  | succ f ih =>
    intro st n hn hst m hm
    rw [visitNode_succ_eq] at hm
    by_cases h1 : n.id ∈ st.visited
    · rw [if_pos h1] at hm; exact hst m hm
    · by_cases h2 : n.id ∈ st.visiting
      · rw [if_neg h1, if_pos h2] at hm; exact hst m hm
      · rw [if_neg h1, if_neg h2] at hm
        simp only at hm
        have hfold := foldl_visitStep_pres nm f
          (fun a b => (∀ x ∈ a.sorted, x ∈ nm) → (∀ x ∈ b.sorted, x ∈ nm))
          (fun s => id) (fun a b c hab hbc hx => hbc (hab hx))
          (fun s p pn hg hx => ih s pn (mapGet_mem nm p pn hg) hx)
          n.data.prerequisites { st with visiting := n.id :: st.visiting }
        rcases List.mem_append.mp hm with hin | hin
        · exact hfold hst m hin
        · rw [List.mem_singleton.mp hin]
          exact hn

theorem topo_fold_props (nm : NodeMap) (fuel : Nat) (hfuel : 1 ≤ fuel) :
    ∀ (l : List FormNode) (st : TopoState),
      (∀ n ∈ l, n ∈ nm) → TopoInv st → st.visiting = [] →
      (∀ m ∈ st.sorted, m ∈ nm) →
      TopoInv (l.foldl (fun st n => visitNode nm fuel st n) st) ∧
      (l.foldl (fun st n => visitNode nm fuel st n) st).visiting = [] ∧
      (∀ m ∈ (l.foldl (fun st n => visitNode nm fuel st n) st).sorted, m ∈ nm) ∧
      (∀ i ∈ st.visited, i ∈ (l.foldl (fun st n => visitNode nm fuel st n) st).visited) ∧
      (∀ n ∈ l, n.id ∈ (l.foldl (fun st n => visitNode nm fuel st n) st).visited) := by
  intro l
  induction l with
  | nil =>
    intro st hl hinv hvg hsm
    exact ⟨hinv, hvg, hsm, fun i hi => hi, fun n hn => absurd hn (List.not_mem_nil n)⟩
  | cons n ns ihl =>
    intro st hl hinv hvg hsm
    rw [List.foldl_cons]
    have hn : n ∈ nm := hl n (List.mem_cons_self _ _)
    have hinv' := visitNode_inv nm fuel st n hinv
    have hvg' : (visitNode nm fuel st n).visiting = [] := by
      rw [visitNode_visiting]; exact hvg
    have hsm' := visitNode_sortedmem nm fuel st n hn hsm
    have hself : n.id ∈ (visitNode nm fuel st n).visited := by
      obtain ⟨f, rfl⟩ := Nat.exists_eq_add_of_le hfuel
      rcases visitNode_self nm f st n with h | h
      · rw [Nat.add_comm] at h; exact h
      · rw [hvg] at h; cases h
    obtain ⟨r1, r2, r3, r4, r5⟩ :=
      ihl (visitNode nm fuel st n) (fun x hx => hl x (List.mem_cons_of_mem _ hx))
        hinv' hvg' hsm'
    refine ⟨r1, r2, r3, ?_, ?_⟩
    · intro i hi
      exact r4 i (visitNode_visited_sub nm fuel st n i hi)
    · intro x hx
      rcases List.mem_cons.mp hx with rfl | hin
      · exact r4 x.id hself
      · exact r5 x hin

theorem topologicalSort_core (nodes : List FormNode) :
    (idsOf (topologicalSort nodes)).Nodup ∧
    (∀ m ∈ topologicalSort nodes, m ∈ nodes) ∧
    (∀ n ∈ nodes, n.id ∈ idsOf (topologicalSort nodes)) := by
  have h := topo_fold_props (createNodeMap nodes) (nodes.length + 1) (by omega)
    nodes { sorted := [], visited := [], visiting := [] }
    (fun n hn => hn) ⟨rfl, List.nodup_nil⟩ rfl
    (fun m hm => absurd hm (List.not_mem_nil m))
  obtain ⟨⟨hvs, hnd⟩, _, hsm, _, hcomp⟩ := h
  refine ⟨hnd, hsm, ?_⟩
  intro n hn
  have := hcomp n hn
  rw [hvs, List.mem_reverse] at this
  exact this

theorem topologicalSort_perm (nodes : List FormNode)
    (hnd : (idsOf nodes).Nodup) : (topologicalSort nodes).Perm nodes := by
  obtain ⟨hsnd, hsub, hcomp⟩ := topologicalSort_core nodes
  have hnodesnd : nodes.Nodup := List.Nodup.of_map _ hnd
  have hsortnd : (topologicalSort nodes).Nodup := List.Nodup.of_map _ hsnd
  have hsub2 : nodes ⊆ topologicalSort nodes := by
    intro n hn
    have hid := hcomp n hn
    obtain ⟨m, hm, hmid⟩ := (mem_idsOf _ _).mp hid
    have hmn : m ∈ nodes := hsub m hm
    have : m = n := List.inj_on_of_nodup_map hnd hmn hn hmid
    rw [← this]
    exact hm
  exact List.Subperm.antisymm
    (List.subperm_of_subset hsortnd fun m hm => hsub m hm)
    (List.subperm_of_subset hnodesnd hsub2)

/-- A sorted prefix is closed: every prerequisite edge out of an element
points at an id that occurs strictly earlier in the list. -/
def ClosedSorted (nm : NodeMap) (l : List FormNode) : Prop :=
  ∀ (i : Nat) (h : i < l.length) (u : FormNode),
    EdgeRel nm (l.get ⟨i, h⟩) u → u.id ∈ idsOf (l.take i)

/-- Acyclicity of the prerequisite-resolution relation of a node map. -/
def AcyclicMap (nm : NodeMap) : Prop :=
  ∀ v, ¬ Relation.TransGen (EdgeRel nm) v v

theorem closedSorted_push (nm : NodeMap) (l : List FormNode) (node : FormNode)
    (hcl : ClosedSorted nm l)
    (hch : ∀ u, EdgeRel nm node u → u.id ∈ idsOf l) :
    ClosedSorted nm (l ++ [node]) := by
  intro i h u he
  by_cases hi : i < l.length
  · have hget : (l ++ [node]).get ⟨i, h⟩ = l.get ⟨i, hi⟩ := by
      simp [List.get_eq_getElem, List.getElem_append_left hi]
    rw [hget] at he
    have := hcl i hi u he
    rw [List.take_append_of_le_length (le_of_lt hi)]
    exact this
  · have hieq : i = l.length := by
      have : i < l.length + 1 := by simpa using h
      omega
    subst hieq
    have hget : (l ++ [node]).get ⟨l.length, h⟩ = node := by
      simp only [List.get_eq_getElem]
      rw [List.getElem_append_right (Nat.le_refl _)]
      simp
    rw [hget] at he
    rw [List.take_append_of_le_length (Nat.le_refl _), List.take_length]
    exact hch u he

theorem visitNode_closed (nm : NodeMap) (hnd : (idsOf nm).Nodup) (hac : AcyclicMap nm) :
    ∀ (fuel : Nat) (st : TopoState) (node : FormNode),
      (idsOf nm).length + 1 ≤ fuel + st.visiting.length →
      st.visiting.Nodup →
      (∀ i ∈ st.visiting, i ∈ idsOf nm) →
      node ∈ nm →
      (∀ i ∈ st.visiting, ∀ w, mapGet nm i = some w →
        Relation.TransGen (EdgeRel nm) w node) →
      TopoInv st →
      (∀ m ∈ st.sorted, m ∈ nm) →
      ClosedSorted nm st.sorted →
      ClosedSorted nm (visitNode nm fuel st node).sorted ∧
      node.id ∈ (visitNode nm fuel st node).visited := by
  intro fuel
  induction fuel with
  | zero =>
    intro st node hf hvnd hvsub _ _ _ _ _
    exfalso
    have hle : st.visiting.length ≤ (idsOf nm).length :=
      List.Subperm.length_le (List.subperm_of_subset hvnd hvsub)
    omega
  | succ f ih =>
    intro st node hf hvnd hvsub hnode hsp hinv hsm hcls
    by_cases h1 : node.id ∈ st.visited
    · rw [visitNode_succ_eq, if_pos h1]
      exact ⟨hcls, h1⟩
    · by_cases h2 : node.id ∈ st.visiting
      · exfalso
        have hcan : mapGet nm node.id = some node := mapGet_of_mem_nodup nm node hnode hnd
        exact hac node (hsp node.id h2 node hcan)
      · have hfold : ∀ (l : List String), (∀ p ∈ l, p ∈ node.data.prerequisites) →
            ∀ (s : TopoState), s.visiting = node.id :: st.visiting → TopoInv s →
            (∀ m ∈ s.sorted, m ∈ nm) → ClosedSorted nm s.sorted →
            ClosedSorted nm (l.foldl (visitStep nm f) s).sorted ∧
            (l.foldl (visitStep nm f) s).visiting = node.id :: st.visiting ∧
            TopoInv (l.foldl (visitStep nm f) s) ∧
            (∀ m ∈ (l.foldl (visitStep nm f) s).sorted, m ∈ nm) ∧
            (∀ j ∈ s.visited, j ∈ (l.foldl (visitStep nm f) s).visited) ∧
            (∀ q ∈ l, ∀ c, mapGet nm q = some c →
              c.id ∈ (l.foldl (visitStep nm f) s).visited) := by
          intro l
          induction l with
          | nil =>
            intro _ s hsv hsinv hssm hscl
            exact ⟨hscl, hsv, hsinv, hssm, fun j hj => hj,
              fun q hq => absurd hq (List.not_mem_nil q)⟩
          | cons p ps ihl =>
            intro hl s hsv hsinv hssm hscl
            rw [List.foldl_cons]
            cases hg : mapGet nm p with
            | none =>
              have hstep : visitStep nm f s p = s := by unfold visitStep; rw [hg]
              rw [hstep]
              obtain ⟨c1, c2, c3, c4, c5, c6⟩ :=
                ihl (fun q hq => hl q (List.mem_cons_of_mem _ hq)) s hsv hsinv hssm hscl
              refine ⟨c1, c2, c3, c4, c5, ?_⟩
              intro q hq c hc
              rcases List.mem_cons.mp hq with rfl | hin
              · rw [hg] at hc; cases hc
              · exact c6 q hin c hc
            | some pn =>
              have hstep : visitStep nm f s p = visitNode nm f s pn := by
                unfold visitStep; rw [hg]
              rw [hstep]
              have hfuel' : (idsOf nm).length + 1 ≤ f + s.visiting.length := by
                rw [hsv]
                simp only [List.length_cons]
                omega
              have hvnd' : s.visiting.Nodup := by
                rw [hsv]
                exact List.nodup_cons.mpr ⟨h2, hvnd⟩
              have hvsub' : ∀ i ∈ s.visiting, i ∈ idsOf nm := by
                rw [hsv]
                intro i hi
                rcases List.mem_cons.mp hi with rfl | hin
                · exact List.mem_map_of_mem _ hnode
                · exact hvsub i hin
              have hpnm : pn ∈ nm := mapGet_mem nm p pn hg
              have hedge : EdgeRel nm node pn := ⟨p, hl p (List.mem_cons_self _ _), hg⟩
              have hsp' : ∀ i ∈ s.visiting, ∀ w, mapGet nm i = some w →
                  Relation.TransGen (EdgeRel nm) w pn := by
                rw [hsv]
                intro i hi w hw
                rcases List.mem_cons.mp hi with rfl | hin
                · have hcan : mapGet nm node.id = some node :=
                    mapGet_of_mem_nodup nm node hnode hnd
                  rw [hcan] at hw
                  injection hw with hw
                  rw [← hw]
                  exact Relation.TransGen.single hedge
                · exact Relation.TransGen.tail (hsp i hin w hw) hedge
              obtain ⟨d1, d2⟩ := ih s pn hfuel' hvnd' hvsub' hpnm hsp' hsinv hssm hscl
              have hsv2 : (visitNode nm f s pn).visiting = node.id :: st.visiting := by
                rw [visitNode_visiting]; exact hsv
              have hinv2 := visitNode_inv nm f s pn hsinv
              have hsm2 := visitNode_sortedmem nm f s pn hpnm hssm
              obtain ⟨c1, c2, c3, c4, c5, c6⟩ :=
                ihl (fun q hq => hl q (List.mem_cons_of_mem _ hq))
                  (visitNode nm f s pn) hsv2 hinv2 hsm2 d1
              refine ⟨c1, c2, c3, c4, ?_, ?_⟩
              · intro j hj
                exact c5 j (visitNode_visited_sub nm f s pn j hj)
              · intro q hq c hc
                rcases List.mem_cons.mp hq with rfl | hin
                · rw [hg] at hc
                  injection hc with hc
                  rw [← hc]
                  exact c5 pn.id d2
                · exact c6 q hin c hc
        have hst1inv : TopoInv { st with visiting := node.id :: st.visiting } := hinv
        have hst1sm : ∀ m ∈ ({ st with visiting := node.id :: st.visiting } : TopoState).sorted,
            m ∈ nm := hsm
        have hst1cl : ClosedSorted nm
            ({ st with visiting := node.id :: st.visiting } : TopoState).sorted := hcls
        obtain ⟨e1, e2, e3, e4, e5, e6⟩ :=
          hfold node.data.prerequisites (fun q hq => hq)
            { st with visiting := node.id :: st.visiting } rfl hst1inv hst1sm hst1cl
        rw [visitNode_succ_eq, if_neg h1, if_neg h2]
        simp only
        constructor
        · apply closedSorted_push nm _ node e1
          intro u hu
          obtain ⟨p, hp, hgu⟩ := hu
          have := e6 p hp u hgu
          rw [e3.1, List.mem_reverse] at this
          exact this
        · exact List.mem_cons_self _ _

theorem topo_fold_closed (nm : NodeMap) (hnd : (idsOf nm).Nodup) (hac : AcyclicMap nm)
    (fuel : Nat) (hfuel : (idsOf nm).length + 1 ≤ fuel) :
    ∀ (l : List FormNode) (st : TopoState),
      (∀ n ∈ l, n ∈ nm) → st.visiting = [] → TopoInv st →
      (∀ m ∈ st.sorted, m ∈ nm) → ClosedSorted nm st.sorted →
      ClosedSorted nm ((l.foldl (fun st n => visitNode nm fuel st n) st).sorted) := by
  intro l
  induction l with
  | nil => intro st _ _ _ _ hcl; exact hcl
  | cons n ns ihl =>
    intro st hl hvg hinv hsm hcl
    rw [List.foldl_cons]
    have hn : n ∈ nm := hl n (List.mem_cons_self _ _)
    have hvis0 : st.visiting.length = 0 := by rw [hvg]; rfl
    obtain ⟨hcl', _⟩ := visitNode_closed nm hnd hac fuel st n
      (by omega) (by rw [hvg]; exact List.nodup_nil)
      (by rw [hvg]; intro i hi; cases hi) hn
      (by rw [hvg]; intro i hi; cases hi) hinv hsm hcl
    exact ihl (visitNode nm fuel st n)
      (fun x hx => hl x (List.mem_cons_of_mem _ hx))
      (by rw [visitNode_visiting]; exact hvg)
      (visitNode_inv nm fuel st n hinv)
      (visitNode_sortedmem nm fuel st n hn hsm) hcl'

theorem topologicalSort_closed (nodes : List FormNode)
    (hnd : (idsOf nodes).Nodup) (hac : AcyclicMap nodes) :
    ClosedSorted nodes (topologicalSort nodes) := by
  have hfuel : (idsOf nodes).length + 1 ≤ nodes.length + 1 := by
    simp [idsOf]
  exact topo_fold_closed nodes hnd hac (nodes.length + 1) hfuel nodes
    { sorted := [], visited := [], visiting := [] }
    (fun n hn => hn) rfl ⟨rfl, List.nodup_nil⟩
    (fun m hm => absurd hm (List.not_mem_nil m))
    (fun i h => absurd h (Nat.not_lt_zero i))

theorem nodup_indexOf_eq (l : List FormNode) (hnd : l.Nodup) (u : FormNode)
    (j : Nat) (hj : j < l.length) (hu : l.get ⟨j, hj⟩ = u) : l.indexOf u = j := by
  have humem : u ∈ l := hu ▸ List.get_mem l j hj
  have hlt := List.indexOf_lt_length.mpr humem
  have hget : l.get ⟨l.indexOf u, hlt⟩ = u := List.indexOf_get hlt
  have heq : (⟨l.indexOf u, hlt⟩ : Fin l.length) = ⟨j, hj⟩ :=
    (List.Nodup.get_inj_iff hnd).mp (by rw [hget, hu])
  exact congrArg Fin.val heq

theorem closed_order (nm : NodeMap) (l : List FormNode)
    (hcl : ClosedSorted nm l) (hnd : (idsOf l).Nodup)
    (hcomp : ∀ n ∈ nm, n ∈ l) :
    ∀ (M N : FormNode), M ∈ l → N ∈ l →
      Relation.TransGen (EdgeRel nm) M N → l.indexOf N < l.indexOf M := by
  have hlnd : l.Nodup := List.Nodup.of_map _ hnd
  have hstep : ∀ (a u : FormNode), a ∈ l → u ∈ l → EdgeRel nm a u →
      l.indexOf u < l.indexOf a := by
    intro a u ha hu he
    have hia := List.indexOf_lt_length.mpr ha
    have hgeta : l.get ⟨l.indexOf a, hia⟩ = a := List.indexOf_get hia
    have hclo := hcl (l.indexOf a) hia u (by rw [hgeta]; exact he)
    obtain ⟨x, hx, hxid⟩ := (mem_idsOf _ _).mp hclo
    have hxl : x ∈ l := List.mem_of_mem_take hx
    have hxu : x = u := List.inj_on_of_nodup_map hnd hxl hu hxid
    subst hxu
    obtain ⟨j, hjlen, hjx⟩ := List.getElem_of_mem hx
    have hlen : (l.take (l.indexOf a)).length = min (l.indexOf a) l.length :=
      List.length_take _ _
    have hji : j < l.indexOf a :=
      lt_of_lt_of_le hjlen (by rw [hlen]; exact Nat.min_le_left _ _)
    have hjl : j < l.length :=
      lt_of_lt_of_le hjlen (by rw [hlen]; exact Nat.min_le_right _ _)
    have hgj : l.get ⟨j, hjl⟩ = x := by
      rw [List.get_eq_getElem, ← hjx, List.getElem_take]
    have := nodup_indexOf_eq l hlnd x j hjl hgj
    omega
  intro M N hM hN htg
  revert hM
  induction htg using Relation.TransGen.head_induction_on with
  | base h =>
    intro ha
    exact hstep _ N ha hN h
  | ih h1 h2 h3 =>
    intro ha
    rename_i a c
    have hcnm : c ∈ nm := by
      obtain ⟨p, _, hg⟩ := h1
      exact mapGet_mem nm p c hg
    have hcl2 : c ∈ l := hcomp c hcnm
    exact lt_trans (h3 hcl2) (hstep a c ha hcl2 h1)

theorem insertByPriority_perm (p : DataSourceProvider) :
    ∀ (l : List DataSourceProvider),
      (DataSourceRegistry.insertByPriority p l).Perm (p :: l) := by
  intro l
  induction l with
  | nil => exact List.Perm.refl _
  | cons q rest ih =>
    rw [DataSourceRegistry.insertByPriority]
    split
    · exact List.Perm.refl _
    · exact (List.Perm.cons q ih).trans (List.Perm.swap p q rest)

theorem sortByPriority_perm : ∀ (st : List DataSourceProvider),
    (DataSourceRegistry.sortByPriority st).Perm st := by
  intro st
  induction st with
  | nil => exact List.Perm.refl _
  | cons p rest ih =>
    rw [DataSourceRegistry.sortByPriority]
    exact (insertByPriority_perm p _).trans (List.Perm.cons p ih)

theorem insertByPriority_sorted (p : DataSourceProvider) :
    ∀ (l : List DataSourceProvider),
      l.Pairwise (fun a b => a.priority ≤ b.priority) →
      (DataSourceRegistry.insertByPriority p l).Pairwise
        (fun a b => a.priority ≤ b.priority) := by
  intro l
  induction l with
  | nil => intro _; simp [DataSourceRegistry.insertByPriority]
  | cons q rest ih =>
    intro h
    rw [DataSourceRegistry.insertByPriority]
    rw [List.pairwise_cons] at h
    by_cases hle : p.priority ≤ q.priority
    · rw [if_pos hle]
      rw [List.pairwise_cons]
      refine ⟨?_, List.pairwise_cons.mpr h⟩
      intro b hb
      rcases List.mem_cons.mp hb with rfl | hin
      · exact hle
      · exact le_trans hle (h.1 b hin)
    · rw [if_neg hle]
      rw [List.pairwise_cons]
      refine ⟨?_, ih h.2⟩
      intro b hb
      have hb2 : b ∈ p :: rest := (insertByPriority_perm p rest).mem_iff.mp hb
      rcases List.mem_cons.mp hb2 with rfl | hin
      · exact le_of_not_le hle
      · exact h.1 b hin

theorem sortByPriority_sorted : ∀ (st : List DataSourceProvider),
    (DataSourceRegistry.sortByPriority st).Pairwise
      (fun a b => a.priority ≤ b.priority) := by
  intro st
  induction st with
  | nil => simp [DataSourceRegistry.sortByPriority]
  | cons p rest ih =>
    rw [DataSourceRegistry.sortByPriority]
    exact insertByPriority_sorted p _ ih

theorem getAllDataSources_foldl (node : FormNode) (graph : BlueprintGraph) :
    ∀ (l : List DataSourceProvider) (acc : List DataSourceGroup),
      l.foldl
        (fun groups p =>
          if p.isApplicable node graph then groups ++ p.getDataSources node graph
          else groups) acc =
      acc ++ (l.filter (fun p => p.isApplicable node graph)).flatMap
        (fun p => p.getDataSources node graph) := by
  intro l
  induction l with
  | nil => intro acc; simp
  | cons p ps ih =>
    intro acc
    rw [List.foldl_cons]
    by_cases happ : p.isApplicable node graph
    · rw [if_pos happ, ih, List.filter_cons_of_pos (by simpa using happ)]
      simp [List.append_assoc]
    · rw [if_neg happ, ih, List.filter_cons_of_neg (by simpa using happ)]

theorem recLookup_mapset (k : String) (v : PrefillMapping) :
    ∀ (l : List (String × PrefillMapping)), l.any (fun e => e.1 == k) = true →
      recLookup (l.map (fun e => if e.1 == k then (k, v) else e)) k = some v := by
  intro l
  induction l with
  | nil => intro h; cases h
  | cons e es ih =>
    intro h
    rw [List.map_cons]
    by_cases he : e.1 = k
    · simp [recLookup, he]
    · have hbeq : (e.1 == k) = false := by simpa using he
      rw [if_neg (by simp [he])]
      have hany : es.any (fun e => e.1 == k) = true := by
        rw [List.any_cons] at h
        simpa [hbeq] using h
      have := ih hany
      simpa [recLookup, List.find?_cons, hbeq] using this

theorem recLookup_append_single (k : String) (v : PrefillMapping) :
    ∀ (l : List (String × PrefillMapping)), (∀ e ∈ l, ¬ e.1 = k) →
      recLookup (l ++ [(k, v)]) k = some v := by
  intro l
  induction l with
  | nil => intro _; simp [recLookup]
  | cons e es ih =>
    intro h
    have he : ¬ e.1 = k := h e (List.mem_cons_self _ _)
    have hbeq : (e.1 == k) = false := by simpa using he
    have := ih (fun x hx => h x (List.mem_cons_of_mem _ hx))
    simpa [recLookup, List.find?_cons, hbeq] using this

theorem recLookup_set_self (l : List (String × PrefillMapping)) (k : String)
    (v : PrefillMapping) : recLookup (recSet l k v) k = some v := by
  unfold recSet
  by_cases hany : l.any (fun e => e.1 == k) = true
  · rw [if_pos hany]
    exact recLookup_mapset k v l hany
  · rw [if_neg hany]
    apply recLookup_append_single
    intro e he hek
    apply hany
    rw [List.any_eq_true]
    exact ⟨e, he, by simpa using hek⟩

theorem recLookup_mapset_other (k k' : String) (v : PrefillMapping) (hne : k' ≠ k) :
    ∀ (l : List (String × PrefillMapping)),
      recLookup (l.map (fun e => if e.1 == k then (k, v) else e)) k' = recLookup l k' := by
  intro l
  induction l with
  | nil => rfl
  | cons e es ih =>
    rw [List.map_cons]
    by_cases he : e.1 = k
    · rw [if_pos (by simpa using he)]
      have h1 : ((k, v).1 == k') = false := by simpa using (Ne.symm hne)
      have h2 : (e.1 == k') = false := by
        rw [he]; simpa using (Ne.symm hne)
      simpa [recLookup, List.find?_cons, h1, h2] using ih
    · rw [if_neg (by simpa using he)]
      by_cases he' : e.1 = k'
      · simp [recLookup, List.find?_cons, he']
      · have hb : (e.1 == k') = false := by simpa using he'
        simpa [recLookup, List.find?_cons, hb] using ih

theorem recLookup_append_single_other (k k' : String) (v : PrefillMapping)
    (hne : k' ≠ k) :
    ∀ (l : List (String × PrefillMapping)),
      recLookup (l ++ [(k, v)]) k' = recLookup l k' := by
  intro l
  induction l with
  | nil =>
    have : ((k, v).1 == k') = false := by simpa using (Ne.symm hne)
    simp [recLookup, this]
  | cons e es ih =>
    by_cases he' : e.1 = k'
    · simp [recLookup, List.find?_cons, he']
    · have hb : (e.1 == k') = false := by simpa using he'
      simpa [recLookup, List.find?_cons, hb] using ih

theorem recLookup_set_other (l : List (String × PrefillMapping)) (k k' : String)
    (v : PrefillMapping) (hne : k' ≠ k) :
    recLookup (recSet l k v) k' = recLookup l k' := by
  unfold recSet
  split
  · exact recLookup_mapset_other k k' v hne l
  · exact recLookup_append_single_other k k' v hne l

theorem recLookup_delete_self (l : List (String × PrefillMapping)) (k : String) :
    recLookup (recDelete l k) k = none := by
  unfold recLookup recDelete
  rw [Option.map_eq_none', List.find?_eq_none]
  intro e he
  have := (List.mem_filter.mp he).2
  simp at this
  simpa using this

theorem recLookup_delete_other (l : List (String × PrefillMapping)) (k k' : String)
    (hne : k' ≠ k) : recLookup (recDelete l k) k' = recLookup l k' := by
  induction l with
  | nil => rfl
  | cons e es ih =>
    unfold recDelete
    rw [List.filter_cons]
    by_cases he : e.1 = k
    · rw [if_neg (by simpa using he)]
      have hb : (e.1 == k') = false := by rw [he]; simpa using (Ne.symm hne)
      rw [show recLookup (e :: es) k' = recLookup es k' by
        simp [recLookup, List.find?_cons, hb]]
      exact ih
    · rw [if_pos (by simpa using he)]
      by_cases he' : e.1 = k'
      · simp [recLookup, List.find?_cons, he']
      · have hb : (e.1 == k') = false := by simpa using he'
        simp only [recLookup, List.find?_cons, hb]
        exact ih

theorem bfsTransitive_nilq (nm : NodeMap) (dir : List String) (fuel : Nat)
    (v : List String) (tacc : List FormNode) :
    bfsTransitive nm dir fuel v [] tacc = tacc := by
  cases fuel <;> rfl

theorem bfsAncestors_nilq (nm : NodeMap) (fuel : Nat)
    (v : List String) (acc : List FormNode) :
    bfsAncestors nm fuel v [] acc = acc := by
  cases fuel <;> rfl

theorem mem_idsOf_direct (node : FormNode) (nm : NodeMap) (i : String) :
    i ∈ idsOf (getDirectDependencies node nm) ↔
      i ∈ node.data.prerequisites ∧ (mapGet nm i).isSome := by
  constructor
  · intro h
    obtain ⟨x, hx, rfl⟩ := (mem_idsOf _ _).mp h
    obtain ⟨p, hp, hg⟩ := List.mem_filterMap.mp hx
    have hxp := mapGet_id nm p x hg
    rw [hxp]
    exact ⟨hp, by rw [hg]; rfl⟩
  · rintro ⟨hp, hs⟩
    obtain ⟨x, hg⟩ := Option.isSome_iff_exists.mp hs
    have hxid := mapGet_id nm i x hg
    rw [mem_idsOf]
    exact ⟨x, List.mem_filterMap.mpr ⟨i, hp, hg⟩, hxid⟩

theorem transGen_first {r : FormNode → FormNode → Prop} (a b : FormNode)
    (h : Relation.TransGen r a b) : ∃ c, r a c := by
  induction h using Relation.TransGen.head_induction_on with
  | base h => exact ⟨_, h⟩
  | ih h1 _ _ => exact ⟨_, h1⟩

theorem transGen_head_cases {r : FormNode → FormNode → Prop} (a b : FormNode)
    (h : Relation.TransGen r a b) : r a b ∨ ∃ c, r a c ∧ Relation.TransGen r c b := by
  induction h using Relation.TransGen.head_induction_on with
  | base h => exact Or.inl h
  | ih h1 h2 _ => exact Or.inr ⟨_, h1, h2⟩

/-- Concrete node fixture used by the example graphs below. -/
def fixNode (i : String) (pre : List String) (cid : String) : FormNode :=
  { id := i
    data := { name := "Form " ++ i, prerequisites := pre, component_id := cid,
              input_mapping := [] } }

/-- Diamond scenario: A with no prerequisites, B and C depending on A, D
depending on B and C. -/
def wdA : FormNode := fixNode "a" [] "f1"

def wdB : FormNode := fixNode "b" ["a"] "f1"

def wdC : FormNode := fixNode "c" ["a"] "f1"

def wdD : FormNode := fixNode "d" ["b", "c"] "f1"

def wdNodes : List FormNode := [wdA, wdB, wdC, wdD]

/-- Chain scenario: A, B depending on A, C depending on B. -/
def wcA : FormNode := fixNode "a" [] "f1"

def wcB : FormNode := fixNode "b" ["a"] "f1"

def wcC : FormNode := fixNode "c" ["b"] "f1"

def wcNodes : List FormNode := [wcA, wcB, wcC]

/-- Cyclic scenario: X lists M and A, M lists X (cycle M-X), A has no
prerequisites. -/
def cxX : FormNode := fixNode "x" ["m", "a"] "f1"

def cxM : FormNode := fixNode "m" ["x"] "f1"

def cxA : FormNode := fixNode "a" [] "f1"

def cxNodes : List FormNode := [cxX, cxM, cxA]

/-- Acyclic two-node scenario: B depends on A. -/
def w1A : FormNode := fixNode "a" [] "f1"

def w1B : FormNode := fixNode "b" ["a"] "f1"

def w1Nodes : List FormNode := [w1A, w1B]

/-- Two distinct nodes sharing the id "a". -/
def dupA1 : FormNode := fixNode "a" [] "f1"

def dupA2 : FormNode :=
  { id := "a"
    data := { name := "Second", prerequisites := [], component_id := "f1",
              input_mapping := [] } }

/-- Self-loop scenario: a node listing itself as a prerequisite. -/
def slS : FormNode := fixNode "s" ["s"] "f1"

def slNodes : List FormNode := [slS]

theorem acyclic_w1 : AcyclicMap (createNodeMap w1Nodes) := by
  intro v htg
  have hdest : ∀ u w, EdgeRel (createNodeMap w1Nodes) u w → w = w1A ∨ w = w1B := by
    rintro u w ⟨p, _, hg⟩
    have hw : w ∈ createNodeMap w1Nodes := mapGet_mem _ p w hg
    rcases List.mem_cons.mp hw with h | h
    · exact Or.inl h
    · exact Or.inr (List.mem_singleton.mp h)
  have hnoA : ∀ w, ¬ EdgeRel (createNodeMap w1Nodes) w1A w := by
    rintro w ⟨p, hp, _⟩
    simp [w1A, fixNode] at hp
  have hBdest : ∀ w, EdgeRel (createNodeMap w1Nodes) w1B w → w = w1A := by
    rintro w ⟨p, hp, hg⟩
    have hpa : p = "a" := by simpa [w1B, fixNode] using hp
    subst hpa
    have hga : mapGet (createNodeMap w1Nodes) "a" = some w1A := by decide
    rw [hga] at hg
    injection hg with hg
    exact hg.symm
  have hv : v = w1A ∨ v = w1B := by
    cases htg with
    | single h => exact hdest _ _ h
    | tail _ h2 => exact hdest _ _ h2
  rcases hv with rfl | rfl
  · obtain ⟨c, hc⟩ := transGen_first _ _ htg
    exact hnoA c hc
  · rcases transGen_head_cases _ _ htg with h | ⟨c, hc, htc⟩
    · have := hBdest _ h
      exact absurd this (by decide)
    · have hca := hBdest _ hc
      subst hca
      obtain ⟨e, he⟩ := transGen_first _ _ htc
      exact hnoA e he

/-- C1 (counterexample): on the cyclic collection cxNodes, the node cxA has
an empty prerequisite list and cxM lists cxA indirectly (via cxX), yet
topologicalSort places cxM strictly before cxA, so the claim as stated
(quantified over all inputs, cyclic or not) is false. -/
theorem C1_counterexample :
    cxA.data.prerequisites = [] ∧
    Relation.TransGen (EdgeRel (createNodeMap cxNodes)) cxM cxA ∧
    (topologicalSort cxNodes).indexOf cxM < (topologicalSort cxNodes).indexOf cxA := by
  refine ⟨rfl, ?_, by decide⟩
  have h1 : EdgeRel (createNodeMap cxNodes) cxM cxX := ⟨"x", by decide, by decide⟩
  have h2 : EdgeRel (createNodeMap cxNodes) cxX cxA := ⟨"a", by decide, by decide⟩
  exact Relation.TransGen.head h1 (Relation.TransGen.single h2)

/-- C1 (amended): for every node N with an empty prerequisite list, the
direct, transitive and ancestor computations all return the empty list
for every index; and, provided the input collection has pairwise distinct
ids and an acyclic prerequisite-resolution relation, topologicalSort
places N strictly before every node that directly or indirectly lists N
as a prerequisite. -/
theorem C1_amended_thm (index : NodeMap) (N : FormNode)
    (hpre : N.data.prerequisites = []) :
    (getDirectDependencies N index = [] ∧
     getTransitiveDependencies N index = [] ∧
     getAllAncestors N index = []) ∧
    (∀ (nodes : List FormNode), (idsOf nodes).Nodup →
      AcyclicMap (createNodeMap nodes) → N ∈ nodes →
      ∀ M ∈ nodes, Relation.TransGen (EdgeRel (createNodeMap nodes)) M N →
        (topologicalSort nodes).indexOf N < (topologicalSort nodes).indexOf M) := by
  constructor
  · refine ⟨?_, ?_, ?_⟩
    · unfold getDirectDependencies
      rw [hpre]
      rfl
    · unfold getTransitiveDependencies
      rw [hpre]
      exact bfsTransitive_nilq _ _ _ _ _
    · unfold getAllAncestors
      rw [hpre]
      exact bfsAncestors_nilq _ _ _ _
  · intro nodes hnd hac hN M hM htg
    have hcl := topologicalSort_closed nodes hnd hac
    obtain ⟨hsnd, hsub, hcomp⟩ := topologicalSort_core nodes
    have hmem : ∀ n ∈ nodes, n ∈ topologicalSort nodes := by
      intro n hn
      obtain ⟨m, hm, hmid⟩ := (mem_idsOf _ _).mp (hcomp n hn)
      have : m = n := List.inj_on_of_nodup_map hnd (hsub m hm) hn hmid
      rw [← this]
      exact hm
    exact closed_order (createNodeMap nodes) (topologicalSort nodes) hcl hsnd hmem
      M N (hmem M hM) (hmem N hN) htg

/-- C1 (witness): on the acyclic two-node collection w1Nodes, w1A (no
prerequisites) is placed before w1B, which lists it. -/
theorem C1_witness :
    (topologicalSort w1Nodes).indexOf w1A < (topologicalSort w1Nodes).indexOf w1B :=
  (C1_amended_thm w1Nodes w1A rfl).2 w1Nodes (by decide) acyclic_w1 (by decide)
    w1B (by decide) (Relation.TransGen.single ⟨"a", by decide, by decide⟩)

/-- C3 (counterexample): for the self-loop node slS, the id "s" is in the
direct-dependency ids of getAllDependencies but not among the ancestor
ids, so the id sets direct ∪ transitive and allAncestors differ. -/
theorem C3_counterexample :
    "s" ∈ idsOf (getAllDependencies slS (createNodeMap slNodes)).direct ∧
    "s" ∉ idsOf (getAllAncestors slS (createNodeMap slNodes)) := by
  decide

/-- C3 (amended): for every index and node N that does not list itself as
a resolvable prerequisite, the direct and transitive id sets of
getAllDependencies are disjoint and their union equals the id set of
getAllAncestors. -/
theorem C3_amended_thm (nodes : List FormNode) (N : FormNode)
    (hself : ¬ (N.id ∈ N.data.prerequisites ∧
      (mapGet (createNodeMap nodes) N.id).isSome)) :
    (∀ i, i ∈ idsOf (getAllDependencies N (createNodeMap nodes)).direct →
      i ∉ idsOf (getAllDependencies N (createNodeMap nodes)).transitive) ∧
    (∀ i, (i ∈ idsOf (getAllDependencies N (createNodeMap nodes)).direct ∨
           i ∈ idsOf (getAllDependencies N (createNodeMap nodes)).transitive) ↔
          i ∈ idsOf (getAllAncestors N (createNodeMap nodes))) := by
  have hcoup := transAnc_coupled (createNodeMap nodes) N.data.prerequisites
    (N.data.prerequisites.length + sumPrereqs (createNodeMap nodes) [] + 1)
    [N.id] N.data.prerequisites [] []
    (by
      have := sumPrereqs_cons_le (createNodeMap nodes) N.id []
      omega)
    (fun x hx => absurd hx (List.not_mem_nil x))
    (fun x hx => absurd hx (List.not_mem_nil x))
    (fun i hi _ _ hd => absurd hi hd)
    (fun x hx => absurd hx (List.not_mem_nil x))
    (by
      intro i hi hs
      refine Or.inr ⟨hi, ?_⟩
      intro hv
      have heq : i = N.id := List.mem_singleton.mp hv
      subst heq
      exact hself ⟨hi, hs⟩)
  obtain ⟨G1, G2, G3⟩ := hcoup
  have hT : getTransitiveDependencies N (createNodeMap nodes) =
      bfsTransitive (createNodeMap nodes) N.data.prerequisites
        (N.data.prerequisites.length + sumPrereqs (createNodeMap nodes) [] + 1)
        [N.id] N.data.prerequisites [] := rfl
  have hA : getAllAncestors N (createNodeMap nodes) =
      bfsAncestors (createNodeMap nodes)
        (N.data.prerequisites.length + sumPrereqs (createNodeMap nodes) [] + 1)
        [N.id] N.data.prerequisites [] := rfl
  constructor
  · intro i hdir htrans
    have hdi := (mem_idsOf_direct N (createNodeMap nodes) i).mp hdir
    have := (G1 i (by rw [← hT]; exact htrans)).2
    exact this hdi.1
  · intro i
    constructor
    · intro h
      rcases h with hdir | htrans
      · have hdi := (mem_idsOf_direct N (createNodeMap nodes) i).mp hdir
        rw [hA]
        exact G3 i hdi.1 hdi.2
      · rw [hA]
        exact (G1 i (by rw [← hT]; exact htrans)).1
    · intro h
      rcases G2 i (by rw [← hA]; exact h) with h1 | h1
      · right
        rw [show (getAllDependencies N (createNodeMap nodes)).transitive =
          getTransitiveDependencies N (createNodeMap nodes) from rfl, hT]
        exact h1
      · left
        exact (mem_idsOf_direct N (createNodeMap nodes) i).mpr h1

/-- C3 (witness): on the chain wcNodes, the id "a" is a transitive
dependency of wcC and the equivalence with the ancestor id set holds. -/
theorem C3_witness :
    ("a" ∈ idsOf (getAllDependencies wcC (createNodeMap wcNodes)).direct ∨
     "a" ∈ idsOf (getAllDependencies wcC (createNodeMap wcNodes)).transitive) ↔
    "a" ∈ idsOf (getAllAncestors wcC (createNodeMap wcNodes)) :=
  (C3_amended_thm wcNodes wcC (by decide)).2 "a"

/-- C4 (counterexample): on a collection with two distinct nodes sharing
one id, topologicalSort drops the second node, so the output is not a
permutation of the input. -/
theorem C4_counterexample :
    ¬ (topologicalSort [dupA1, dupA2]).Perm [dupA1, dupA2] := by
  intro h
  exact absurd h.length_eq (by decide)

/-- C4 (amended): for every input collection with pairwise distinct node
ids (acyclic or cyclic), topologicalSort returns a permutation of its
input, and hence the same multiset of ids. -/
theorem C4_amended_thm (nodes : List FormNode) (hnd : (idsOf nodes).Nodup) :
    (topologicalSort nodes).Perm nodes ∧
    (idsOf (topologicalSort nodes)).Perm (idsOf nodes) := by
  have h := topologicalSort_perm nodes hnd
  exact ⟨h, h.map _⟩

/-- C4 (witness): on the cyclic collection cxNodes (distinct ids), the
output of topologicalSort is a permutation of the input. -/
theorem C4_witness : (topologicalSort cxNodes).Perm cxNodes :=
  (C4_amended_thm cxNodes (by decide)).1

/-- C5: for every node and index, the transitive-dependency list carries
pairwise distinct ids (a node reachable along several paths appears at
most once); and on the diamond wdNodes the transitive dependencies of wdD
are exactly [wdA] while its ancestors are exactly [wdB, wdC, wdA]. -/
theorem C5_thm :
    (∀ (node : FormNode) (nodes : List FormNode),
      (idsOf (getTransitiveDependencies node (createNodeMap nodes))).Nodup) ∧
    getTransitiveDependencies wdD (createNodeMap wdNodes) = [wdA] ∧
    getAllAncestors wdD (createNodeMap wdNodes) = [wdB, wdC, wdA] := by
  refine ⟨?_, by decide, by decide⟩
  intro node nodes
  exact bfsTransitive_nodup (createNodeMap nodes) node.data.prerequisites
    (node.data.prerequisites.length + sumPrereqs (createNodeMap nodes) [] + 1)
    [node.id] node.data.prerequisites [] List.nodup_nil

/-- C9: the results of getTransitiveDependencies and getAllAncestors never
contain the start node itself (by id), for every node and index, because
the visited set is seeded with the node's own id. -/
theorem C9_thm (node : FormNode) (nodes : List FormNode) (m : FormNode) :
    (m ∈ getTransitiveDependencies node (createNodeMap nodes) → m.id ≠ node.id) ∧
    (m ∈ getAllAncestors node (createNodeMap nodes) → m.id ≠ node.id) := by
  constructor
  · intro hm
    rcases bfsTransitive_src (createNodeMap nodes) node.data.prerequisites
      (node.data.prerequisites.length + sumPrereqs (createNodeMap nodes) [] + 1)
      [node.id] node.data.prerequisites [] m hm with h | ⟨h1, _, _⟩
    · cases h
    · intro heq
      exact h1 (by rw [heq]; exact List.mem_singleton_self _)
  · intro hm
    rcases bfsAncestors_src (createNodeMap nodes)
      (node.data.prerequisites.length + sumPrereqs (createNodeMap nodes) [] + 1)
      [node.id] node.data.prerequisites [] m hm with h | ⟨h1, _⟩
    · cases h
    · intro heq
      exact h1 (by rw [heq]; exact List.mem_singleton_self _)

/-- C9 (witness): on the chain wcNodes, the transitive dependency wcA and
the ancestor wcB of wcC both differ from wcC in id. -/
theorem C9_witness : wcA.id ≠ wcC.id ∧ wcB.id ≠ wcC.id :=
  ⟨(C9_thm wcC wcNodes wcA).1 (by decide), (C9_thm wcC wcNodes wcB).2 (by decide)⟩

/-- An extra global source configuration used in the examples below. -/
def cfgExtra : GlobalDataSourceConfig :=
  { id := "custom-x", name := "Custom X", description := none, fields := [] }

/-- A heap holding the module-level default array and one custom array,
with a reference to the custom one (a provider constructed with an
explicit customSources argument). -/
def w2Alloc : GDPHeap × GlobalDataProvider.Ref :=
  GlobalDataProvider.newCustom gdpInitHeap []

/-- C2 (counterexample): two provider instances built by the
zero-argument constructor both hold a reference to the module-level
globalDataSources array (cell 0), so addSource through the first changes
what getDataSources returns through the second. -/
theorem C2_counterexample :
    GlobalDataProvider.getDataSources
        (GlobalDataProvider.addSource gdpInitHeap GlobalDataProvider.newDefault cfgExtra)
        GlobalDataProvider.newDefault ≠
      GlobalDataProvider.getDataSources gdpInitHeap GlobalDataProvider.newDefault :=
  fun h => absurd (congrArg List.length h) (by decide)

/-- C2 (amended): addSource on one instance leaves another instance's
getDataSources unchanged provided the two instances do not alias the same
underlying sources array (default-constructed instances all alias the
module-level table); removeSource never changes another instance's
getDataSources, because it rebinds the first instance to a freshly
allocated array instead of mutating the shared one. -/
theorem C2_amended_thm (h : GDPHeap) (p1 p2 : GlobalDataProvider.Ref)
    (s : GlobalDataSourceConfig) (sid : String) :
    (p1.sources ≠ p2.sources →
      GlobalDataProvider.getDataSources (GlobalDataProvider.addSource h p1 s) p2 =
        GlobalDataProvider.getDataSources h p2) ∧
    (p2.sources < h.length →
      GlobalDataProvider.getDataSources (GlobalDataProvider.removeSource h p1 sid).1 p2 =
        GlobalDataProvider.getDataSources h p2) := by
  constructor
  · intro hne
    unfold GlobalDataProvider.getDataSources GlobalDataProvider.addSource
    simp only [List.getD_eq_getElem?_getD]
    rw [List.getElem?_set_ne hne]
  · intro hlt
    unfold GlobalDataProvider.getDataSources GlobalDataProvider.removeSource
    simp only [List.getD_eq_getElem?_getD]
    rw [List.getElem?_append_left hlt]

/-- C2 (witness): with one default-constructed instance (cell 0) and one
custom-constructed instance (cell 1), addSource and removeSource through
the first leave the second's getDataSources unchanged. -/
theorem C2_witness :
    GlobalDataProvider.getDataSources
        (GlobalDataProvider.addSource w2Alloc.1 GlobalDataProvider.newDefault cfgExtra)
        w2Alloc.2 =
      GlobalDataProvider.getDataSources w2Alloc.1 w2Alloc.2 ∧
    GlobalDataProvider.getDataSources
        (GlobalDataProvider.removeSource w2Alloc.1 GlobalDataProvider.newDefault
          "action-properties").1 w2Alloc.2 =
      GlobalDataProvider.getDataSources w2Alloc.1 w2Alloc.2 :=
  ⟨(C2_amended_thm w2Alloc.1 GlobalDataProvider.newDefault w2Alloc.2 cfgExtra
      "action-properties").1 (by decide),
   (C2_amended_thm w2Alloc.1 GlobalDataProvider.newDefault w2Alloc.2 cfgExtra
      "action-properties").2 (by decide)⟩

/-- C6: for every registry state, node and graph, getAllDataSources is
exactly the concatenation, over getProviders in order, of the group lists
of the applicable providers (inapplicable providers contribute nothing and
each provider's groups stay contiguous and in its own order); getProviders
is sorted by non-decreasing priority and is a permutation of the
registered providers. -/
theorem C6_thm (st : DataSourceRegistry) (node : FormNode) (graph : BlueprintGraph) :
    DataSourceRegistry.getAllDataSources st node graph =
      ((DataSourceRegistry.getProviders st).filter
        (fun p => p.isApplicable node graph)).flatMap
        (fun p => p.getDataSources node graph) ∧
    (DataSourceRegistry.getProviders st).Pairwise
      (fun a b => a.priority ≤ b.priority) ∧
    (DataSourceRegistry.getProviders st).Perm st := by
  refine ⟨?_, sortByPriority_sorted st, sortByPriority_perm st⟩
  unfold DataSourceRegistry.getAllDataSources
  rw [getAllDataSources_foldl]
  simp [DataSourceRegistry.getProviders]

/-- Form fixture with a declared-but-empty title on its only field. -/
def c7Form : FormDefinition :=
  { id := "f1", name := "F"
    properties := some [("email", { type := "string", title := some "", avantos_type := none })] }

def c7Node : FormNode := fixNode "n1" [] "f1"

def c7Graph : BlueprintGraph := { nodes := [c7Node], forms := [c7Form] }

/-- C7 (counterexample): the form definition resolves and declares a title
(the empty string) for the field "email", yet getFormFields names the
field by its id, not by the declared title, refuting the claim that the
name equals the declared title whenever one is present. -/
theorem C7_counterexample :
    getFormDefinition c7Node c7Graph = some c7Form ∧
    c7Form.properties =
      some [("email", { type := "string", title := some "", avantos_type := none })] ∧
    (getFormFields c7Node c7Graph).map (fun f => f.name) = ["email"] ∧
    ("email" : String) ≠ "" := by
  decide

/-- C7 (amended): getFormFields returns the empty list when the node's
form definition does not resolve (and also when its properties record is
absent), and otherwise one entry per schema field carrying the declared
type and optional semantic subtype, whose name is the declared title when
a NON-EMPTY one is present and the field id otherwise. -/
theorem C7_amended_thm (node : FormNode) (graph : BlueprintGraph) :
    getFormFields node graph =
      match getFormDefinition node graph with
      | none => []
      | some fd =>
        (fd.properties.getD []).map (fun e =>
          { id := e.1
            name := match e.2.title with
                    | none => e.1
                    | some t => if t = "" then e.1 else t
            type := e.2.type
            avantosType := e.2.avantos_type }) := by
  rcases hdef : getFormDefinition node graph with _ | fd
  · simp [getFormFields, hdef]
  · rcases hp : fd.properties with _ | props
    · simp [getFormFields, hdef, hp]
    · simp [getFormFields, hdef, hp, jsOr]

/-- C8: when the node id resolves, updatePrefillMapping succeeds and the
resulting graph value agrees with the input everywhere except the named
node's input_mapping entry for the named field: the form collection is
unchanged, every other node (by position) is unchanged, the updated node
keeps its id, name, prerequisites and form reference, the named field's
entry becomes the stored mapping (or disappears when the mapping argument
is null), and every other field's entry is unchanged.  Being a pure Lean
function, the model cannot mutate the input graph; the source likewise
builds a structural copy. -/
theorem C8_thm (g : BlueprintGraph) (nodeId fieldId : String)
    (m : Option UpdateMappingInput) (g' : BlueprintGraph)
    (h : updatePrefillMapping g nodeId fieldId m = Except.ok g') :
    g'.forms = g.forms ∧
    g'.nodes.length = g.nodes.length ∧
    (∀ j, j ≠ g.nodes.findIdx (fun n => n.id == nodeId) →
      g'.nodes[j]? = g.nodes[j]?) ∧
    g.nodes.findIdx (fun n => n.id == nodeId) < g.nodes.length ∧
    (∀ old, g.nodes[g.nodes.findIdx (fun n => n.id == nodeId)]? = some old →
      old.id = nodeId ∧
      ∀ new, g'.nodes[g.nodes.findIdx (fun n => n.id == nodeId)]? = some new →
        new.id = old.id ∧
        new.data.name = old.data.name ∧
        new.data.prerequisites = old.data.prerequisites ∧
        new.data.component_id = old.data.component_id ∧
        recLookup new.data.input_mapping fieldId =
          (match m with
           | none => none
           | some mm => some (mkStoredMapping mm)) ∧
        (∀ f, f ≠ fieldId →
          recLookup new.data.input_mapping f = recLookup old.data.input_mapping f)) := by
  unfold updatePrefillMapping at h
  rcases m with _ | mm
  · dsimp only at h
    split at h
    · have hidx : g.nodes.findIdx (fun n => n.id == nodeId) < g.nodes.length := by
        assumption
      injection h with h
      subst h
      refine ⟨rfl, by simp, ?_, hidx, ?_⟩
      · intro j hj
        exact List.getElem?_set_ne (fun hh => hj hh.symm)
      · intro old hold
        rw [List.getElem?_eq_getElem hidx] at hold
        injection hold with hold
        have hpred := @List.findIdx_getElem _ (fun n => n.id == nodeId) g.nodes hidx
        constructor
        · rw [← hold]
          exact beq_iff_eq.mp hpred
        · intro new hnew
          rw [List.getElem?_set_self (by simpa using hidx)] at hnew
          injection hnew with hnew
          rw [← hnew, ← hold]
          exact ⟨rfl, rfl, rfl, rfl, recLookup_delete_self _ fieldId,
            fun f hf => recLookup_delete_other _ fieldId f hf⟩
    · cases h
  · dsimp only at h
    split at h
    · have hidx : g.nodes.findIdx (fun n => n.id == nodeId) < g.nodes.length := by
        assumption
      injection h with h
      subst h
      refine ⟨rfl, by simp, ?_, hidx, ?_⟩
      · intro j hj
        exact List.getElem?_set_ne (fun hh => hj hh.symm)
      · intro old hold
        rw [List.getElem?_eq_getElem hidx] at hold
        injection hold with hold
        have hpred := @List.findIdx_getElem _ (fun n => n.id == nodeId) g.nodes hidx
        constructor
        · rw [← hold]
          exact beq_iff_eq.mp hpred
        · intro new hnew
          rw [List.getElem?_set_self (by simpa using hidx)] at hnew
          injection hnew with hnew
          rw [← hnew, ← hold]
          exact ⟨rfl, rfl, rfl, rfl, recLookup_set_self _ fieldId _,
            fun f hf => recLookup_set_other _ fieldId f _ hf⟩
    · cases h

/-- Fixtures for the prefill-update example: a two-node graph and an
update request targeting the second node's "email" field. -/
def w8m : UpdateMappingInput :=
  { type := "form_field", sourceFormId := some "node-a", sourceFieldId := "email" }

def w8a : FormNode := fixNode "node-a" [] "f1"

def w8b : FormNode := fixNode "node-b" ["node-a"] "f1"

def w8g : BlueprintGraph := { nodes := [w8a, w8b], forms := [] }

def w8bNew : FormNode :=
  { id := "node-b"
    data := { name := w8b.data.name, prerequisites := w8b.data.prerequisites,
              component_id := w8b.data.component_id,
              input_mapping := [("email", mkStoredMapping w8m)] } }

def w8gRes : BlueprintGraph := { nodes := [w8a, w8bNew], forms := [] }

/-- C8 (witness): on the concrete graph w8g, updating node-b's "email"
mapping succeeds with the expected graph value, and the updated node's
record holds exactly the stored mapping. -/
theorem C8_witness :
    recLookup w8bNew.data.input_mapping "email" = some (mkStoredMapping w8m) := by
  have h := C8_thm w8g "node-b" "email" (some w8m) w8gRes (by rfl)
  have hold := h.2.2.2.2 w8b (by decide)
  have hnew := hold.2 w8bNew (by decide)
  exact hnew.2.2.2.2.1

/-- Fixtures for the missing-form-definition example: both the direct
dependency w10d and the transitive dependency w10t reference form ids
that are absent from the graph's (empty) form collection. -/
def w10t : FormNode := fixNode "t" [] "missing2"

def w10d : FormNode := fixNode "d" ["t"] "missing1"

def w10main : FormNode := fixNode "main" ["d"] "f1"

def w10graph : BlueprintGraph := { nodes := [w10t, w10d, w10main], forms := [] }

/-- C10: the direct- and transitive-dependency providers produce exactly
one group per resolved dependency, and a dependency whose form definition
does not resolve still contributes its group, with an empty items list,
instead of being omitted. -/
theorem C10_thm (node : FormNode) (graph : BlueprintGraph) :
    (DirectDependencyFieldsProvider.getDataSources node graph).length =
      (getDirectDependencies node (createNodeMap graph.nodes)).length ∧
    (TransitiveDependencyFieldsProvider.getDataSources node graph).length =
      (getTransitiveDependencies node (createNodeMap graph.nodes)).length ∧
    (∀ dep, dep ∈ getDirectDependencies node (createNodeMap graph.nodes) →
      getFormDefinition dep graph = none →
      DirectDependencyFieldsProvider.createGroupForNode dep graph ∈
        DirectDependencyFieldsProvider.getDataSources node graph ∧
      (DirectDependencyFieldsProvider.createGroupForNode dep graph).items = []) ∧
    (∀ dep, dep ∈ getTransitiveDependencies node (createNodeMap graph.nodes) →
      getFormDefinition dep graph = none →
      TransitiveDependencyFieldsProvider.createGroupForNode dep graph ∈
        TransitiveDependencyFieldsProvider.getDataSources node graph ∧
      (TransitiveDependencyFieldsProvider.createGroupForNode dep graph).items = []) := by
  refine ⟨by simp [DirectDependencyFieldsProvider.getDataSources],
    by simp [TransitiveDependencyFieldsProvider.getDataSources], ?_, ?_⟩
  · intro dep hdep hnone
    have hff : getFormFields dep graph = [] := by
      unfold getFormFields
      rw [hnone]
    constructor
    · exact List.mem_map_of_mem _ hdep
    · simp [DirectDependencyFieldsProvider.createGroupForNode, hff]
  · intro dep hdep hnone
    have hff : getFormFields dep graph = [] := by
      unfold getFormFields
      rw [hnone]
    constructor
    · exact List.mem_map_of_mem _ hdep
    · simp [TransitiveDependencyFieldsProvider.createGroupForNode, hff]

/-- C10 (witness): in w10graph both the direct dependency w10d and the
transitive dependency w10t of w10main have unresolvable form ids, and
each still yields its group with an empty items list. -/
theorem C10_witness :
    (DirectDependencyFieldsProvider.createGroupForNode w10d w10graph ∈
        DirectDependencyFieldsProvider.getDataSources w10main w10graph ∧
      (DirectDependencyFieldsProvider.createGroupForNode w10d w10graph).items = []) ∧
    (TransitiveDependencyFieldsProvider.createGroupForNode w10t w10graph ∈
        TransitiveDependencyFieldsProvider.getDataSources w10main w10graph ∧
      (TransitiveDependencyFieldsProvider.createGroupForNode w10t w10graph).items = []) :=
  ⟨(C10_thm w10main w10graph).2.2.1 w10d (by decide) (by decide),
   (C10_thm w10main w10graph).2.2.2 w10t (by decide) (by decide)⟩
